import Mathlib

/-!
Shallow embedding of src/probabilistic/trace.py: the execution-trace engine of a
lightweight Metropolis-Hastings probabilistic-programming runtime.

Modelling choices:
* Values, distribution parameters and log-probabilities are integers; Python
  truthiness of a value is `v != 0`, and an absent optional argument is `none`.
* An elementary random procedure (ERP) is identified by a natural number (Python
  compares ERP objects by identity with `is`); its sampling, density and
  proposal operations are supplied by an environment `Env : Nat -> ERP`.
* Randomness is an explicit oracle stream `List Value`: each call to
  `_sample_impl` or `_proposal` consumes the head of the stream.
* The stochastic computation is a list of the calls it makes into the engine
  (`lookup`, `addFactor`, `conditionOn`) plus its return value; `traceUpdate`
  runs that list exactly as trace.py lines 70-106 do.
* Python dicts are association lists with in-place update (`setVar` replaces
  the first binding of a key, preserving order, and appends new keys), which
  matches insertion-ordered dict mutation.
-/

namespace ProbTrace

abbrev Value := Int

abbrev Params := Int

abbrev LP := Int

abbrev Addr := Nat

/-- External distribution capability set (spec section 6): sample, log-density,
proposal sample, proposal log-density.  `sample p d` consumes one oracle draw
`d`; `propSample v p d` likewise. -/
structure ERP where
  sample : Params → Value → Value
  logpdf : Value → Params → LP
  propSample : Value → Params → Value → Value
  propLogpdf : Value → Value → Params → LP

abbrev Env := Nat → ERP

/-- RandomVariableRecord (trace.py lines 5-18): one choice point. -/
structure RandomVariableRecord where
  erp : Nat
  params : Params
  val : Value
  logprob : LP
  active : Bool
  conditioned : Bool
  structural : Bool
deriving DecidableEq, Inhabited

/-- RandomExecutionTrace state (trace.py lines 26-35) minus the fields that only
feed the call-stack naming subsystem (rootframe, loopcounters) and the stored
computation, which is passed explicitly to the operations. -/
structure RandomExecutionTrace where
  vars : List (Addr × RandomVariableRecord)
  logprob : LP
  newlogprob : LP
  oldlogprob : LP
  conditionsSatisfied : Bool
  returnValue : Value
deriving DecidableEq, Inhabited

/-- Dict read: value of the first binding of key `a`. -/
def getVar {α : Type} (m : List (Addr × α)) (a : Addr) : Option α :=
  match m with
  | [] => none
  | e :: rest => if e.1 = a then some e.2 else getVar rest a

/-- Dict write: replace the first binding of key `a` in place, or append. -/
def setVar {α : Type} (m : List (Addr × α)) (a : Addr) (v : α) : List (Addr × α) :=
  match m with
  | [] => [(a, v)]
  | e :: rest => if e.1 = a then (a, v) :: rest else e :: setVar rest a v

def keys {α : Type} (m : List (Addr × α)) : List Addr :=
  m.map Prod.fst

/-- Python truthiness of the optional `conditionedValue` argument. -/
def condTruthy : Option Value → Bool
  | some c => c != 0
  | none => false

def condGet : Option Value → Value
  | some c => c
  | none => 0

/-- One oracle draw: head of the randomness stream (default 0 if exhausted). -/
def drawNext : List Value → Value × List Value
  | [] => (0, [])
  | d :: rest => (d, rest)

/-- The discard-and-create test of `lookup` (trace.py lines 161-163):
`not record or record.erp is not erp or isStructural != record.structural or
(conditionedValue and conditionedValue != record.val)`. -/
def mustCreate (record? : Option RandomVariableRecord) (erp : Nat) (isStructural : Bool)
    (cv : Option Value) : Bool :=
  match record? with
  | none => true
  | some record =>
    (record.erp != erp) || (isStructural != record.structural) ||
      (condTruthy cv && (condGet cv != record.val))

/-- The create-new-variable block of `lookup` (trace.py lines 164-169) followed
by the shared tail (lines 175-177): `val = (conditionedValue if conditionedValue
else erp._sample_impl(params))`; store a fresh record with
`conditioned = conditionedValue != None`; add its log-density to `newlogprob`
and to `logprob`; the record is created `active = True`. -/
def freshLookup (E : Env) (t : RandomExecutionTrace) (name : Addr) (erp : Nat)
    (params : Params) (isStructural : Bool) (cv : Option Value) (ds : List Value) :
    RandomExecutionTrace × Value × List Value :=
  let (val, ds') :=
    if condTruthy cv then (condGet cv, ds)
    else
      let (d, ds') := drawNext ds
      ((E erp).sample params d, ds')
  let ll := (E erp).logpdf val params
  let record : RandomVariableRecord :=
    { erp := erp, params := params, val := val, logprob := ll,
      active := true, conditioned := cv.isSome, structural := isStructural }
  ({ t with newlogprob := t.newlogprob + ll,
            vars := setVar t.vars name record,
            logprob := t.logprob + record.logprob },
   record.val, ds')

/-- `lookup` (trace.py lines 154-177).  Reuse branch (lines 170-174): if the
stored params differ, update them and recompute the log-density of the stored
value; shared tail (lines 175-177): `logprob += record.logprob`,
`record.active = True`, return `record.val`. -/
def lookup (E : Env) (t : RandomExecutionTrace) (name : Addr) (erp : Nat)
    (params : Params) (isStructural : Bool) (cv : Option Value) (ds : List Value) :
    RandomExecutionTrace × Value × List Value :=
  match getVar t.vars name with
  | none => freshLookup E t name erp params isStructural cv ds
  | some record0 =>
    if (record0.erp != erp) || (isStructural != record0.structural) ||
        (condTruthy cv && (condGet cv != record0.val)) then
      freshLookup E t name erp params isStructural cv ds
    else
      let record1 :=
        if record0.params != params then
          { record0 with params := params, logprob := (E erp).logpdf record0.val params }
        else record0
      let record2 := { record1 with active := true }
      ({ t with vars := setVar t.vars name record2,
                logprob := t.logprob + record2.logprob },
       record2.val, ds)

/-- `addFactor` (trace.py lines 185-189). -/
def addFactor (t : RandomExecutionTrace) (num : LP) : RandomExecutionTrace :=
  { t with logprob := t.logprob + num }

/-- `conditionOn` (trace.py lines 191-195). -/
def conditionOn (t : RandomExecutionTrace) (b : Bool) : RandomExecutionTrace :=
  { t with conditionsSatisfied := t.conditionsSatisfied && b }

/-- One engine call issued by the stochastic computation while it runs. -/
inductive Op where
  | look (name : Addr) (erp : Nat) (params : Params) (isStructural : Bool) (cv : Option Value)
  | factor (x : LP)
  | condition (b : Bool)
deriving DecidableEq

def runOp (E : Env) (s : RandomExecutionTrace × List Value) : Op → RandomExecutionTrace × List Value
  | .look name erp params isStructural cv =>
    let (t, _, ds) := lookup E s.1 name erp params isStructural cv s.2
    (t, ds)
  | .factor x => (addFactor s.1 x, s.2)
  | .condition b => (conditionOn s.1 b, s.2)

def runOps (E : Env) (s : RandomExecutionTrace × List Value) :
    List Op → RandomExecutionTrace × List Value
  | [] => s
  | o :: rest => runOps E (runOp E s o) rest

/-- A stochastic computation: the engine calls its body makes, in order, and
its return value. -/
structure Prog where
  ops : List Op
  ret : Value
deriving DecidableEq

def deactivate (r : RandomVariableRecord) : RandomVariableRecord :=
  { r with active := false }

/-- Mark every record inactive (trace.py lines 86-87). -/
def markAllInactive (m : List (Addr × RandomVariableRecord)) :
    List (Addr × RandomVariableRecord) :=
  m.map (fun e => (e.1, deactivate e.2))

/-- Sum of `logprob` over the inactive records (trace.py lines 100-103). -/
def inactiveSum (m : List (Addr × RandomVariableRecord)) : LP :=
  (m.map (fun e => if e.2.active then 0 else e.2.logprob)).sum

/-- Sum of `logprob` over the active records. -/
def activeSum (m : List (Addr × RandomVariableRecord)) : LP :=
  (m.map (fun e => if e.2.active then e.2.logprob else 0)).sum

/-- `traceUpdate` (trace.py lines 70-106), with the global-slot bookkeeping and
call-frame naming elided (the computation is the explicit op list): zero
`logprob` and `newlogprob`, set `conditionsSatisfied` optimistically, mark all
records inactive, run the computation, capture its result, compute `oldlogprob`
over the records still inactive and remove them. -/
def traceUpdate (E : Env) (t : RandomExecutionTrace) (prog : Prog) (ds : List Value) :
    RandomExecutionTrace :=
  let t0 := { t with logprob := 0, newlogprob := 0, conditionsSatisfied := true,
                     vars := markAllInactive t.vars }
  let s := runOps E (t0, ds) prog.ops
  let t2 := { s.1 with returnValue := prog.ret }
  { t2 with oldlogprob := inactiveSum t2.vars,
            vars := t2.vars.filter (fun e => e.2.active) }

/-- `getRecord` (trace.py lines 179-183). -/
def getRecord (t : RandomExecutionTrace) (name : Addr) : Option RandomVariableRecord :=
  getVar t.vars name

/-- `proposeChange` (trace.py lines 108-124).  Returns `none` where the Python
code would fail with an attribute error (no record at `varname`).  The deep
copy is implicit in the value semantics here; the heap model below makes the
aliasing explicit. -/
def proposeChange (E : Env) (t : RandomExecutionTrace) (varname : Addr) (prog : Prog)
    (ds : List Value) : Option (RandomExecutionTrace × LP × LP) :=
  match getVar t.vars varname with
  | none => none
  | some var =>
    let (d, ds1) := drawNext ds
    let propval := (E var.erp).propSample var.val var.params d
    let fwdPropLP := (E var.erp).propLogpdf var.val propval var.params
    let rvsPropLP := (E var.erp).propLogpdf propval var.val var.params
    let var' := { var with val := propval,
                           logprob := (E var.erp).logpdf propval var.params }
    let next0 := { t with vars := setVar t.vars varname var' }
    let nextTrace := traceUpdate E next0 prog ds1
    some (nextTrace, fwdPropLP + nextTrace.newlogprob, rvsPropLP + nextTrace.oldlogprob)

/-- `freeVarNames` (trace.py lines 51-55). -/
def freeVarNames (t : RandomExecutionTrace) (structural nonstructural : Bool) : List Addr :=
  (t.vars.filter (fun e => !e.2.conditioned &&
      ((structural && e.2.structural) || (nonstructural && !e.2.structural)))).map Prod.fst

/-- `lookupVariableValue` (trace.py lines 202-208).  The active-trace slot is an
explicit argument; `name` stands for the address the code computes via
`_trace.currentName(numFrameSkip+1)` (interpreter-stack introspection,
abstracted as an input).  Returns the value, the remaining oracle stream and
the updated active trace. -/
def lookupVariableValue (E : Env) (slot : Option RandomExecutionTrace) (erp : Nat)
    (params : Params) (isStructural : Bool) (name : Addr) (cv : Option Value)
    (ds : List Value) : Value × List Value × Option RandomExecutionTrace :=
  match slot with
  | none =>
    if condTruthy cv then (condGet cv, ds, none)
    else
      let (d, ds') := drawNext ds
      ((E erp).sample params d, ds', none)
  | some t =>
    let (t', v, ds') := lookup E t name erp params isStructural cv ds
    (v, ds', some t')

/-- An engine call of a computation that may also raise an error. -/
inductive OpE where
  | act (o : Op)
  | raiseErr
deriving DecidableEq

structure ProgE where
  ops : List OpE
  ret : Value
deriving DecidableEq

/-- Running a possibly-raising computation: `none` means an uncaught error. -/
def runOpsE (E : Env) (s : RandomExecutionTrace × List Value) :
    List OpE → Option (RandomExecutionTrace × List Value)
  | [] => some s
  | .act o :: rest => runOpsE E (runOp E s o) rest
  | .raiseErr :: _ => none

/-- `traceUpdate` (trace.py lines 70-106) with the global `_trace` slot made
explicit (`slot` holds the identity of the active trace, `selfId` that of the
updating trace).  The source saves the slot (line 76), installs itself (line
77), and restores only at line 106, after the computation ran: there is no
try/finally, so when the computation raises, the restore is skipped and the
error propagates with the slot still pointing at the updating trace. -/
def traceUpdateE (E : Env) (slot : Option Nat) (selfId : Nat) (t : RandomExecutionTrace)
    (prog : ProgE) (ds : List Value) : Option Nat × Option RandomExecutionTrace :=
  let originalTrace := slot
  let slotDuring : Option Nat := some selfId
  let t0 := { t with logprob := 0, newlogprob := 0, conditionsSatisfied := true,
                     vars := markAllInactive t.vars }
  match runOpsE E (t0, ds) prog.ops with
  | none => (slotDuring, none)
  | some (t1, _) =>
    let t2 := { t1 with returnValue := prog.ret }
    (originalTrace,
     some { t2 with oldlogprob := inactiveSum t2.vars,
                    vars := t2.vars.filter (fun e => e.2.active) })

/-- Addresses looked up by a computation, in order. -/
def lookAddrs : List Op → List Addr
  | [] => []
  | .look name _ _ _ _ :: rest => name :: lookAddrs rest
  | .factor _ :: rest => lookAddrs rest
  | .condition _ :: rest => lookAddrs rest

/-- Sum of the factors a computation adds via `addFactor`. -/
def factorSum : List Op → LP
  | [] => 0
  | .factor x :: rest => x + factorSum rest
  | .look _ _ _ _ _ :: rest => factorSum rest
  | .condition _ :: rest => factorSum rest

/-!
Heap model of the trace engine, for the deep-copy frame property of
`proposeChange`.  Records live in a heap (`List RandomVariableRecord`) and a
trace's `vars` maps addresses to heap references.  Python's in-place record
mutations (`record.active = True`, `record.params = params`, `var.val =
propval`) become `hset` at a reference; `__deepcopy__` (trace.py lines 41-49)
copies each record into a fresh cell (`copy.copy(record)` builds a new object)
and copies the scalar fields.
-/

abbrev Heap := List RandomVariableRecord

def hget (h : Heap) (r : Nat) : RandomVariableRecord :=
  h.getD r default

def hset (h : Heap) (r : Nat) (v : RandomVariableRecord) : Heap :=
  h.set r v

/-- Trace state in the heap model: addresses map to heap references. -/
structure HTrace where
  vars : List (Addr × Nat)
  logprob : LP
  newlogprob : LP
  oldlogprob : LP
  conditionsSatisfied : Bool
  returnValue : Value
deriving DecidableEq, Inhabited

/-- Create-new-variable block of `lookup` in the heap model: the fresh record is
allocated in a new cell and the address rebound to it (the old cell, if any,
becomes garbage, exactly as the replaced Python object does). -/
def hFreshLookup (E : Env) (h : Heap) (t : HTrace) (name : Addr) (erp : Nat)
    (params : Params) (isStructural : Bool) (cv : Option Value) (ds : List Value) :
    Heap × HTrace × Value × List Value :=
  let (val, ds') :=
    if condTruthy cv then (condGet cv, ds)
    else
      let (d, ds') := drawNext ds
      ((E erp).sample params d, ds')
  let ll := (E erp).logpdf val params
  let record : RandomVariableRecord :=
    { erp := erp, params := params, val := val, logprob := ll,
      active := true, conditioned := cv.isSome, structural := isStructural }
  let ref := h.length
  let h1 := h ++ [record]
  let h2 := hset h1 ref { record with active := true }
  (h2,
   { t with newlogprob := t.newlogprob + ll,
            vars := setVar t.vars name ref,
            logprob := t.logprob + record.logprob },
   record.val, ds')

/-- `lookup` in the heap model (trace.py lines 154-177). -/
def hLookup (E : Env) (h : Heap) (t : HTrace) (name : Addr) (erp : Nat)
    (params : Params) (isStructural : Bool) (cv : Option Value) (ds : List Value) :
    Heap × HTrace × Value × List Value :=
  match getVar t.vars name with
  | none => hFreshLookup E h t name erp params isStructural cv ds
  | some ref =>
    let record0 := hget h ref
    if (record0.erp != erp) || (isStructural != record0.structural) ||
        (condTruthy cv && (condGet cv != record0.val)) then
      hFreshLookup E h t name erp params isStructural cv ds
    else
      let record1 :=
        if record0.params != params then
          { record0 with params := params, logprob := (E erp).logpdf record0.val params }
        else record0
      let record2 := { record1 with active := true }
      let h1 := hset h ref record2
      (h1,
       { t with logprob := t.logprob + record2.logprob },
       record2.val, ds)

def hRunOp (E : Env) (s : Heap × HTrace × List Value) : Op → Heap × HTrace × List Value
  | .look name erp params isStructural cv =>
    let (h, t, _, ds) := hLookup E s.1 s.2.1 name erp params isStructural cv s.2.2
    (h, t, ds)
  | .factor x => (s.1, { s.2.1 with logprob := s.2.1.logprob + x }, s.2.2)
  | .condition b =>
    (s.1, { s.2.1 with conditionsSatisfied := s.2.1.conditionsSatisfied && b }, s.2.2)

def hRunOps (E : Env) (s : Heap × HTrace × List Value) :
    List Op → Heap × HTrace × List Value
  | [] => s
  | o :: rest => hRunOps E (hRunOp E s o) rest

/-- Mark every record reachable from the trace inactive (trace.py lines 86-87),
as in-place mutations of the referenced cells. -/
def markInactiveRefs (h : Heap) (refs : List Nat) : Heap :=
  match refs with
  | [] => h
  | r :: rest => markInactiveRefs (hset h r (deactivate (hget h r))) rest

/-- `traceUpdate` (trace.py lines 70-106) in the heap model. -/
def hTraceUpdate (E : Env) (h : Heap) (t : HTrace) (prog : Prog) (ds : List Value) :
    Heap × HTrace :=
  let t0 := { t with logprob := 0, newlogprob := 0, conditionsSatisfied := true }
  let h0 := markInactiveRefs h (t0.vars.map Prod.snd)
  let s := hRunOps E (h0, t0, ds) prog.ops
  let h1 := s.1
  let t2 := { s.2.1 with returnValue := prog.ret }
  let old := ((t2.vars.map (fun e => hget h1 e.2)).filter (fun r => !r.active)).map
      (fun r => r.logprob) |>.sum
  (h1, { t2 with oldlogprob := old,
                 vars := t2.vars.filter (fun e => (hget h1 e.2).active) })

/-- Rebind each address, in order, to consecutive fresh references starting at
`n`. -/
def freshRefs (n : Nat) : List (Addr × Nat) → List (Addr × Nat)
  | [] => []
  | e :: rest => (e.1, n) :: freshRefs (n + 1) rest

/-- `__deepcopy__` (trace.py lines 41-49): a fresh trace object with the scalar
fields copied and `_vars` rebuilt with `copy.copy(record)` for every record,
i.e. every address rebound to a freshly allocated cell holding the same record
contents. -/
def hDeepcopy (h : Heap) (t : HTrace) : Heap × HTrace :=
  let newCells := t.vars.map (fun e => hget h e.2)
  (h ++ newCells, { t with vars := freshRefs h.length t.vars })

/-- `proposeChange` (trace.py lines 108-124) in the heap model.  `none` where
the Python code would fail with an attribute error (no record at `varname`). -/
def hProposeChange (E : Env) (h : Heap) (t : HTrace) (varname : Addr) (prog : Prog)
    (ds : List Value) : Option (Heap × HTrace × LP × LP) :=
  let (h1, nextTrace) := hDeepcopy h t
  match getVar nextTrace.vars varname with
  | none => none
  | some ref =>
    let var := hget h1 ref
    let (d, ds1) := drawNext ds
    let propval := (E var.erp).propSample var.val var.params d
    let fwdPropLP := (E var.erp).propLogpdf var.val propval var.params
    let rvsPropLP := (E var.erp).propLogpdf propval var.val var.params
    let h2 := hset h1 ref { var with val := propval,
                                     logprob := (E var.erp).logpdf propval var.params }
    let (h3, nt) := hTraceUpdate E h2 nextTrace prog ds1
    some (h3, nt, fwdPropLP + nt.newlogprob, rvsPropLP + nt.oldlogprob)

/-!
Concrete fixtures used by witnesses and counterexamples.
-/

/-- A concrete distribution environment: sampling returns the oracle draw, the
log-density of `v` under `p` is `v + p`, the proposal adds the draw to the
current value, and the proposal log-density of moving from `a` to `b` under `p`
is `a - b + p`. -/
def Etest : Env := fun _ =>
  { sample := fun _ d => d
    logpdf := fun v p => v + p
    propSample := fun v _ d => v + d
    propLogpdf := fun a b p => a - b + p }

def trace0 : RandomExecutionTrace :=
  { vars := [], logprob := 0, newlogprob := 0, oldlogprob := 0,
    conditionsSatisfied := true, returnValue := 0 }

/-- A trace holding one unconditioned record at address 0 (erp 0, params 7,
value 5, log-density 3). -/
def traceA : RandomExecutionTrace :=
  { vars := [(0, { erp := 0, params := 7, val := 5, logprob := 3,
                   active := true, conditioned := false, structural := false })],
    logprob := 3, newlogprob := 0, oldlogprob := 0,
    conditionsSatisfied := true, returnValue := 0 }

/-- A trace holding one unconditioned record at address 0 (erp 0, params 2,
value 6, log-density 1). -/
def traceB : RandomExecutionTrace :=
  { vars := [(0, { erp := 0, params := 2, val := 6, logprob := 1,
                   active := true, conditioned := false, structural := false })],
    logprob := 1, newlogprob := 0, oldlogprob := 0,
    conditionsSatisfied := true, returnValue := 0 }

/-- A trace holding two records, at addresses 0 and 1. -/
def traceC : RandomExecutionTrace :=
  { vars := [(0, { erp := 0, params := 7, val := 5, logprob := 3,
                   active := true, conditioned := false, structural := false }),
             (1, { erp := 1, params := 2, val := 6, logprob := 11,
                   active := true, conditioned := false, structural := true })],
    logprob := 14, newlogprob := 0, oldlogprob := 0,
    conditionsSatisfied := true, returnValue := 0 }

/-- Computation that looks up the same address twice (an address collision). -/
def progDup : Prog :=
  { ops := [.look 0 0 5 false none, .look 0 0 5 false none], ret := 0 }

/-- Computation that looks up one address and adds a factor. -/
def progLF : Prog :=
  { ops := [.look 0 0 5 false none, .factor 4], ret := 0 }

/-- Computation that looks up the same address with two distinct ERP
identities. -/
def progDup2 : Prog :=
  { ops := [.look 0 0 5 false none, .look 0 1 5 false none], ret := 0 }

/-- Computation with two distinct addresses, one conditioned lookup, a factor
and a hard condition. -/
def progTwo : Prog :=
  { ops := [.look 0 0 5 false none, .look 1 0 2 true (some 3), .factor 2,
            .condition true], ret := 9 }

/-- Computation that looks up only address 1. -/
def progOne : Prog :=
  { ops := [.look 1 1 2 true none], ret := 0 }

/-- A one-cell heap and a heap-model trace referencing it. -/
def heap7 : Heap :=
  [{ erp := 0, params := 1, val := 2, logprob := 3,
     active := true, conditioned := false, structural := false }]

def htrace7 : HTrace :=
  { vars := [(5, 0)], logprob := 3, newlogprob := 0, oldlogprob := 0,
    conditionsSatisfied := true, returnValue := 0 }

/-- Computation (heap model fixture) that looks up address 5. -/
def prog7 : Prog :=
  { ops := [.look 5 0 1 false none], ret := 0 }

/-- The trace state at the start of a `traceUpdate` run (trace.py lines 79-87):
zeroed accumulators, optimistic `conditionsSatisfied`, all records inactive. -/
def preRun (t : RandomExecutionTrace) : RandomExecutionTrace :=
  { t with logprob := 0, newlogprob := 0, conditionsSatisfied := true,
           vars := markAllInactive t.vars }

/-- The state after running the computation inside `traceUpdate`, before
reclamation. -/
def runResult (E : Env) (t : RandomExecutionTrace) (prog : Prog) (ds : List Value) :
    RandomExecutionTrace × List Value :=
  runOps E (preRun t, ds) prog.ops

/-- Relation between a mid-run record entry and the corresponding pre-run entry
(`L` is the list of addresses looked up so far): keys agree; an address not yet
looked up still holds its pre-run record marked inactive; a looked-up address
holds an active record. -/
def RunRel (L : List Addr) (e e0 : Addr × RandomVariableRecord) : Prop :=
  e.1 = e0.1 ∧ (e.1 ∉ L → e = (e0.1, deactivate e0.2)) ∧ (e.1 ∈ L → e.2.active = true)

/-- Mid-run invariant on the record map relative to the pre-run map `base`: the
pre-run entries (in order, each related by `RunRel`) followed by the records
freshly created during the run, which are active and sit at looked-up
addresses; moreover every looked-up address holds an active record. -/
def RunInv (base : List (Addr × RandomVariableRecord)) (L : List Addr)
    (m : List (Addr × RandomVariableRecord)) : Prop :=
  (∀ a ∈ L, ∃ r, getVar m a = some r ∧ r.active = true) ∧
  ∃ m1 fr, m = m1 ++ fr ∧ List.Forall₂ (RunRel L) m1 base ∧
    ∀ e ∈ fr, e.2.active = true ∧ e.1 ∈ L

/-- Relation for the second of two identical runs: each entry either already
equals the post-first-run entry or is that entry marked inactive. -/
def ReRel (e e1 : Addr × RandomVariableRecord) : Prop :=
  e.1 = e1.1 ∧ (e = e1 ∨ e = (e1.1, deactivate e1.2))

/-- The record map holds, at the address of every lookup call of the
computation, an active record matching that call (same ERP identity, same
structural flag, same params, and agreeing with a truthy conditioned value). -/
def MatchesOp (m : List (Addr × RandomVariableRecord)) : Op → Prop
  | .look name erp params st cv =>
    ∃ r, getVar m name = some r ∧ r.erp = erp ∧ r.structural = st ∧
      r.params = params ∧ r.active = true ∧
      (condTruthy cv = true → r.val = condGet cv)
  | .factor _ => True
  | .condition _ => True

/-!
Association-list (dict) lemmas.
-/

theorem getVar_setVar_self {α : Type} (m : List (Addr × α)) (a : Addr) (v : α) :
    getVar (setVar m a v) a = some v := by
  induction m with
  | nil => simp [setVar, getVar]
  | cons e rest ih =>
    by_cases h : e.1 = a
    · simp [setVar, h, getVar]
    · simp [setVar, h, getVar, ih]

theorem getVar_setVar_ne {α : Type} (m : List (Addr × α)) (a b : Addr) (v : α)
    (h : a ≠ b) : getVar (setVar m a v) b = getVar m b := by
  induction m with
  | nil => simp [setVar, getVar, h]
  | cons e rest ih =>
    by_cases he : e.1 = a
    · subst he
      simp [setVar, getVar, h]
    · by_cases hb : e.1 = b
      · simp [setVar, he, getVar, hb, Ne.symm h]
      · simp [setVar, he, getVar, hb, ih]

theorem getVar_eq_none_iff {α : Type} (m : List (Addr × α)) (a : Addr) :
    getVar m a = none ↔ a ∉ keys m := by
  induction m with
  | nil => simp [getVar, keys]
  | cons e rest ih =>
    by_cases h : e.1 = a
    · simp [getVar, h, keys]
    · rw [show getVar (e :: rest) a = getVar rest a by simp [getVar, h], ih]
      simp [keys, Ne.symm h]

theorem getVar_of_mem_nodup {α : Type} (m : List (Addr × α)) (e : Addr × α)
    (hnd : (keys m).Nodup) (hm : e ∈ m) : getVar m e.1 = some e.2 := by
  induction m with
  | nil => simp at hm
  | cons f rest ih =>
    simp only [keys, List.map_cons, List.nodup_cons] at hnd
    rcases List.mem_cons.mp hm with h | h
    · subst h; simp [getVar]
    · have hne : f.1 ≠ e.1 := by
        intro hfe
        apply hnd.1
        rw [hfe]
        exact List.mem_map_of_mem Prod.fst h
      rw [show getVar (f :: rest) e.1 = getVar rest e.1 by simp [getVar, hne]]
      exact ih hnd.2 h

theorem keys_setVar_mem {α : Type} (m : List (Addr × α)) (a : Addr) (v : α)
    (h : a ∈ keys m) : keys (setVar m a v) = keys m := by
  induction m with
  | nil => simp [keys] at h
  | cons e rest ih =>
    by_cases he : e.1 = a
    · simp [setVar, he, keys]
    · have hr : a ∈ keys rest := by
        simp only [keys, List.map_cons, List.mem_cons] at h
        rcases h with h | h
        · exact absurd h.symm he
        · exact h
      simp only [setVar, if_neg he, keys, List.map_cons]
      exact congrArg (fun l => e.1 :: l) (ih hr)

theorem keys_setVar_not_mem {α : Type} (m : List (Addr × α)) (a : Addr) (v : α)
    (h : a ∉ keys m) : keys (setVar m a v) = keys m ++ [a] := by
  induction m with
  | nil => simp [setVar, keys]
  | cons e rest ih =>
    simp only [keys, List.map_cons, List.mem_cons] at h
    push_neg at h
    have he : e.1 ≠ a := fun hh => h.1 hh.symm
    simp only [setVar, if_neg he, keys, List.map_cons, List.cons_append]
    exact congrArg (fun l => e.1 :: l) (ih h.2)

theorem nodup_keys_setVar {α : Type} (m : List (Addr × α)) (a : Addr) (v : α)
    (h : (keys m).Nodup) : (keys (setVar m a v)).Nodup := by
  by_cases hm : a ∈ keys m
  · rw [keys_setVar_mem m a v hm]; exact h
  · rw [keys_setVar_not_mem m a v hm]
    simpa [List.nodup_append] using ⟨h, hm⟩

theorem getVar_append_left {α : Type} (m1 m2 : List (Addr × α)) (a : Addr) (v : α)
    (h : getVar m1 a = some v) : getVar (m1 ++ m2) a = some v := by
  induction m1 with
  | nil => simp [getVar] at h
  | cons e rest ih =>
    by_cases he : e.1 = a
    · simp [getVar, he] at h ⊢; exact h
    · simp [getVar, he] at h ⊢; exact ih h

theorem getVar_append_right {α : Type} (m1 m2 : List (Addr × α)) (a : Addr)
    (h : getVar m1 a = none) : getVar (m1 ++ m2) a = getVar m2 a := by
  induction m1 with
  | nil => simp
  | cons e rest ih =>
    by_cases he : e.1 = a
    · simp [getVar, he] at h
    · simp [getVar, he] at h ⊢; exact ih h

theorem setVar_append_left {α : Type} (m1 m2 : List (Addr × α)) (a : Addr) (v : α)
    (h : a ∈ keys m1) : setVar (m1 ++ m2) a v = setVar m1 a v ++ m2 := by
  induction m1 with
  | nil => simp [keys] at h
  | cons e rest ih =>
    by_cases he : e.1 = a
    · simp [setVar, he]
    · have hr : a ∈ keys rest := by
        simp only [keys, List.map_cons, List.mem_cons] at h
        rcases h with h | h
        · exact absurd h.symm he
        · exact h
      simp only [List.cons_append, setVar, if_neg he]
      exact congrArg (fun l => e :: l) (ih hr)

theorem setVar_append_right {α : Type} (m1 m2 : List (Addr × α)) (a : Addr) (v : α)
    (h : a ∉ keys m1) : setVar (m1 ++ m2) a v = m1 ++ setVar m2 a v := by
  induction m1 with
  | nil => simp
  | cons e rest ih =>
    simp only [keys, List.map_cons, List.mem_cons] at h
    push_neg at h
    have he : e.1 ≠ a := fun hh => h.1 hh.symm
    simp only [List.cons_append, setVar, if_neg he]
    exact congrArg (fun l => e :: l) (ih h.2)

/-!
Sum and marking lemmas.
-/

theorem activeSum_cons (e : Addr × RandomVariableRecord) (m : List (Addr × RandomVariableRecord)) :
    activeSum (e :: m) = (if e.2.active then e.2.logprob else 0) + activeSum m := by
  simp [activeSum]

theorem inactiveSum_cons (e : Addr × RandomVariableRecord) (m : List (Addr × RandomVariableRecord)) :
    inactiveSum (e :: m) = (if e.2.active then 0 else e.2.logprob) + inactiveSum m := by
  simp [inactiveSum]

theorem inactiveSum_append (m1 m2 : List (Addr × RandomVariableRecord)) :
    inactiveSum (m1 ++ m2) = inactiveSum m1 + inactiveSum m2 := by
  simp [inactiveSum]

theorem inactiveSum_of_all_active (m : List (Addr × RandomVariableRecord))
    (h : ∀ e ∈ m, e.2.active = true) : inactiveSum m = 0 := by
  induction m with
  | nil => simp [inactiveSum]
  | cons e rest ih =>
    rw [inactiveSum_cons, h e (by simp)]
    simpa using ih fun f hf => h f (by simp [hf])

theorem activeSum_markAllInactive (m : List (Addr × RandomVariableRecord)) :
    activeSum (markAllInactive m) = 0 := by
  induction m with
  | nil => simp [activeSum, markAllInactive]
  | cons e rest ih =>
    simp only [markAllInactive, List.map_cons] at ih ⊢
    rw [activeSum_cons]
    simp [show (deactivate e.2).active = false from rfl, ih]

theorem getVar_markAllInactive (m : List (Addr × RandomVariableRecord)) (a : Addr) :
    getVar (markAllInactive m) a = (getVar m a).map deactivate := by
  induction m with
  | nil => simp [markAllInactive, getVar]
  | cons e rest ih =>
    by_cases h : e.1 = a
    · simp [markAllInactive, getVar, h]
    · simp only [markAllInactive, List.map_cons] at ih ⊢
      simp [getVar, h, ih]

theorem keys_markAllInactive (m : List (Addr × RandomVariableRecord)) :
    keys (markAllInactive m) = keys m := by
  induction m with
  | nil => rfl
  | cons e rest ih =>
    simp only [markAllInactive, keys, List.map_cons] at ih ⊢
    rw [ih]

theorem activeSum_filter (m : List (Addr × RandomVariableRecord)) :
    activeSum (m.filter fun e => e.2.active) = activeSum m := by
  induction m with
  | nil => simp [activeSum]
  | cons e rest ih =>
    cases h : e.2.active with
    | true =>
      rw [List.filter_cons_of_pos (by simp [h]), activeSum_cons, activeSum_cons, ih, h]
    | false =>
      rw [List.filter_cons_of_neg (by simp [h]), activeSum_cons, h, ih]
      simp

theorem filter_active_of_all_active (m : List (Addr × RandomVariableRecord))
    (h : ∀ e ∈ m, e.2.active = true) : m.filter (fun e => e.2.active) = m := by
  induction m with
  | nil => rfl
  | cons e rest ih =>
    rw [List.filter_cons_of_pos (by simp [h e (by simp)])]
    rw [ih fun f hf => h f (by simp [hf])]

theorem activeSum_setVar_active (m : List (Addr × RandomVariableRecord)) (a : Addr)
    (r' : RandomVariableRecord) (hact : r'.active = true)
    (hold : ∀ r, getVar m a = some r → r.active = false) :
    activeSum (setVar m a r') = activeSum m + r'.logprob := by
  induction m with
  | nil => simp [setVar, activeSum, hact]
  | cons e rest ih =>
    by_cases he : e.1 = a
    · have hea : e.2.active = false := hold e.2 (by simp [getVar, he])
      rw [show setVar (e :: rest) a r' = (a, r') :: rest by simp [setVar, he]]
      rw [activeSum_cons, activeSum_cons]
      simp only [hact, hea]
      simp
      ring
    · rw [show setVar (e :: rest) a r' = e :: setVar rest a r' by simp [setVar, he]]
      rw [activeSum_cons, activeSum_cons,
        ih fun r hr => hold r (by simpa [getVar, he] using hr)]
      ring

/-!
Shape lemmas for `lookup`.
-/

theorem lookup_eq_fresh (E : Env) (t : RandomExecutionTrace) (name : Addr) (erp : Nat)
    (params : Params) (st : Bool) (cv : Option Value) (ds : List Value)
    (h : mustCreate (getVar t.vars name) erp st cv = true) :
    lookup E t name erp params st cv ds = freshLookup E t name erp params st cv ds := by
  cases hg : getVar t.vars name with
  | none => simp [lookup, hg]
  | some record0 =>
    rw [hg] at h
    simp only [mustCreate] at h
    simp [lookup, hg, h]

theorem lookup_eq_reuse (E : Env) (t : RandomExecutionTrace) (name : Addr) (erp : Nat)
    (params : Params) (st : Bool) (cv : Option Value) (ds : List Value)
    (record0 : RandomVariableRecord) (hg : getVar t.vars name = some record0)
    (h : mustCreate (some record0) erp st cv = false) :
    lookup E t name erp params st cv ds =
      (let record1 :=
        if record0.params != params then
          { record0 with params := params, logprob := (E erp).logpdf record0.val params }
        else record0
       let record2 := { record1 with active := true }
       ({ t with vars := setVar t.vars name record2,
                 logprob := t.logprob + record2.logprob },
        record2.val, ds)) := by
  simp only [mustCreate] at h
  simp [lookup, hg, h]

/-- Every `lookup` stores one active record at the address, adds its log-density
to `logprob`, returns its value, and touches no other trace field except
`newlogprob`. -/
theorem lookup_shape (E : Env) (t : RandomExecutionTrace) (name : Addr) (erp : Nat)
    (params : Params) (st : Bool) (cv : Option Value) (ds : List Value) :
    ∃ rec : RandomVariableRecord, ∃ ds' : List Value, ∃ nlp : LP,
      lookup E t name erp params st cv ds =
        ({ t with vars := setVar t.vars name rec,
                  logprob := t.logprob + rec.logprob,
                  newlogprob := nlp }, rec.val, ds') ∧
      rec.active = true := by
  cases hmc : mustCreate (getVar t.vars name) erp st cv with
  | true =>
    rw [lookup_eq_fresh E t name erp params st cv ds hmc]
    cases hc : condTruthy cv with
    | true =>
      exact ⟨{ erp := erp, params := params, val := condGet cv,
               logprob := (E erp).logpdf (condGet cv) params, active := true,
               conditioned := cv.isSome, structural := st }, ds,
             t.newlogprob + (E erp).logpdf (condGet cv) params,
             by simp [freshLookup, hc], rfl⟩
    | false =>
      exact ⟨{ erp := erp, params := params, val := (E erp).sample params (drawNext ds).1,
               logprob := (E erp).logpdf ((E erp).sample params (drawNext ds).1) params,
               active := true, conditioned := cv.isSome, structural := st },
             (drawNext ds).2,
             t.newlogprob + (E erp).logpdf ((E erp).sample params (drawNext ds).1) params,
             by simp [freshLookup, hc], rfl⟩
  | false =>
    cases hg : getVar t.vars name with
    | none => rw [hg] at hmc; simp [mustCreate] at hmc
    | some record0 =>
      rw [hg] at hmc
      rw [lookup_eq_reuse E t name erp params st cv ds record0 hg hmc]
      refine ⟨{ (if record0.params != params then
          { record0 with params := params,
                         logprob := (E erp).logpdf record0.val params }
        else record0) with active := true }, ds, t.newlogprob, ?_, rfl⟩
      rfl

/-!
Run-level lemmas.
-/

/-- Records at addresses never looked up are untouched by a run. -/
theorem runOps_getVar_not_looked (E : Env) (ops : List Op) :
    ∀ (s : RandomExecutionTrace × List Value) (a : Addr), a ∉ lookAddrs ops →
      getVar (runOps E s ops).1.vars a = getVar s.1.vars a := by
  induction ops with
  | nil => intro s a _; rfl
  | cons o rest ih =>
    intro s a ha
    cases o with
    | look name erp params st cv =>
      have hne : a ≠ name := fun h => ha (by simp [lookAddrs, h])
      have ha' : a ∉ lookAddrs rest := fun h => ha (by simp [lookAddrs, h])
      obtain ⟨rec, ds', nlp, heq, hact⟩ := lookup_shape E s.1 name erp params st cv s.2
      have hstep : runOps E s (Op.look name erp params st cv :: rest)
          = runOps E ({ s.1 with vars := setVar s.1.vars name rec,
                                 logprob := s.1.logprob + rec.logprob,
                                 newlogprob := nlp }, ds') rest := by
        show runOps E (runOp E s (Op.look name erp params st cv)) rest = _
        simp [runOp, heq]
      rw [hstep, ih _ a ha']
      exact getVar_setVar_ne s.1.vars name a rec (Ne.symm hne)
    | factor x =>
      have ha' : a ∉ lookAddrs rest := fun h => ha (by simp [lookAddrs, h])
      exact (ih _ a ha').trans rfl
    | condition b =>
      have ha' : a ∉ lookAddrs rest := fun h => ha (by simp [lookAddrs, h])
      exact (ih _ a ha').trans rfl

/-- Accounting invariant of a run: provided the looked-up addresses are
pairwise distinct and start out inactive, the run changes
`logprob - activeSum vars` by exactly the factors it adds. -/
theorem runOps_acct (E : Env) (ops : List Op) :
    ∀ s : RandomExecutionTrace × List Value,
      (lookAddrs ops).Nodup →
      (∀ a ∈ lookAddrs ops, ∀ r, getVar s.1.vars a = some r → r.active = false) →
      (runOps E s ops).1.logprob - activeSum (runOps E s ops).1.vars
        = s.1.logprob - activeSum s.1.vars + factorSum ops := by
  induction ops with
  | nil => intro s _ _; simp [runOps, factorSum]
  | cons o rest ih =>
    intro s hnd hinact
    cases o with
    | look name erp params st cv =>
      obtain ⟨rec, ds', nlp, heq, hact⟩ := lookup_shape E s.1 name erp params st cv s.2
      have hstep : runOps E s (Op.look name erp params st cv :: rest)
          = runOps E ({ s.1 with vars := setVar s.1.vars name rec,
                                 logprob := s.1.logprob + rec.logprob,
                                 newlogprob := nlp }, ds') rest := by
        show runOps E (runOp E s (Op.look name erp params st cv)) rest = _
        simp [runOp, heq]
      have hnd2 := List.nodup_cons.mp (show (name :: lookAddrs rest).Nodup by
        simpa [lookAddrs] using hnd)
      have hinact' : ∀ a ∈ lookAddrs rest, ∀ r,
          getVar (setVar s.1.vars name rec) a = some r → r.active = false := by
        intro a ha r hr
        rw [getVar_setVar_ne s.1.vars name a rec (fun h => hnd2.1 (by rw [h]; exact ha))] at hr
        exact hinact a (by simp [lookAddrs, ha]) r hr
      rw [hstep, ih _ hnd2.2 hinact']
      dsimp only
      rw [activeSum_setVar_active s.1.vars name rec hact
        (fun r hr => hinact name (by simp [lookAddrs]) r hr)]
      rw [show factorSum (Op.look name erp params st cv :: rest) = factorSum rest from rfl]
      ring
    | factor x =>
      have hnd' : (lookAddrs rest).Nodup := by simpa [lookAddrs] using hnd
      have hinact' : ∀ a ∈ lookAddrs rest, ∀ r,
          getVar s.1.vars a = some r → r.active = false :=
        fun a ha r hr => hinact a (by simpa [lookAddrs] using ha) r hr
      have := ih (addFactor s.1 x, s.2) hnd' hinact'
      rw [show runOps E s (Op.factor x :: rest) = runOps E (addFactor s.1 x, s.2) rest from rfl]
      rw [this]
      rw [show factorSum (Op.factor x :: rest) = x + factorSum rest from rfl]
      show s.1.logprob + x - activeSum s.1.vars + factorSum rest = _
      ring
    | condition b =>
      have hnd' : (lookAddrs rest).Nodup := by simpa [lookAddrs] using hnd
      have hinact' : ∀ a ∈ lookAddrs rest, ∀ r,
          getVar s.1.vars a = some r → r.active = false :=
        fun a ha r hr => hinact a (by simpa [lookAddrs] using ha) r hr
      have := ih (conditionOn s.1 b, s.2) hnd' hinact'
      rw [show runOps E s (Op.condition b :: rest) = runOps E (conditionOn s.1 b, s.2) rest from rfl]
      rw [this]
      rfl

/-!
Filter and membership lemmas.
-/

theorem mem_setVar {α : Type} (m : List (Addr × α)) (a : Addr) (v : α) :
    ∀ e ∈ setVar m a v, e ∈ m ∨ e = (a, v) := by
  induction m with
  | nil => intro e he; simp [setVar] at he; simp [he]
  | cons f rest ih =>
    intro e he
    by_cases hf : f.1 = a
    · rw [show setVar (f :: rest) a v = (a, v) :: rest by simp [setVar, hf]] at he
      rcases List.mem_cons.mp he with h | h
      · exact Or.inr h
      · exact Or.inl (by simp [h])
    · rw [show setVar (f :: rest) a v = f :: setVar rest a v by simp [setVar, hf]] at he
      rcases List.mem_cons.mp he with h | h
      · exact Or.inl (by simp [h])
      · rcases ih e h with h' | h'
        · exact Or.inl (by simp [h'])
        · exact Or.inr h'

theorem getVar_filter_none {α : Type} (m : List (Addr × α)) (p : Addr × α → Bool)
    (a : Addr) (h : a ∉ keys m) : getVar (m.filter p) a = none := by
  rw [getVar_eq_none_iff]
  intro hk
  apply h
  rcases List.mem_map.mp hk with ⟨e, he, hea⟩
  exact List.mem_map.mpr ⟨e, (List.mem_filter.mp he).1, hea⟩

theorem getVar_filter_of_inactive (m : List (Addr × RandomVariableRecord)) (a : Addr)
    (r : RandomVariableRecord) (hnd : (keys m).Nodup) (hg : getVar m a = some r)
    (hr : r.active = false) : getVar (m.filter fun e => e.2.active) a = none := by
  induction m with
  | nil => simp [getVar] at hg
  | cons e rest ih =>
    simp only [keys, List.map_cons, List.nodup_cons] at hnd
    by_cases he : e.1 = a
    · have her : e.2 = r := by simpa [getVar, he] using hg
      rw [List.filter_cons_of_neg (by simp [her, hr])]
      apply getVar_filter_none
      intro hk
      exact hnd.1 (he ▸ hk)
    · have hg' : getVar rest a = some r := by simpa [getVar, he] using hg
      cases hea : e.2.active with
      | true =>
        rw [List.filter_cons_of_pos (by simp [hea])]
        rw [show getVar (e :: rest.filter fun f => f.2.active) a
              = getVar (rest.filter fun f => f.2.active) a by simp [getVar, he]]
        exact ih hnd.2 hg'
      | false =>
        rw [List.filter_cons_of_neg (by simp [hea])]
        exact ih hnd.2 hg'

theorem getVar_filter_of_active (m : List (Addr × RandomVariableRecord)) (a : Addr)
    (r : RandomVariableRecord) (hg : getVar m a = some r) (hr : r.active = true) :
    getVar (m.filter fun e => e.2.active) a = some r := by
  induction m with
  | nil => simp [getVar] at hg
  | cons e rest ih =>
    by_cases he : e.1 = a
    · have her : e.2 = r := by simpa [getVar, he] using hg
      rw [List.filter_cons_of_pos (by simp [her, hr])]
      simp [getVar, he, her]
    · have hg' : getVar rest a = some r := by simpa [getVar, he] using hg
      cases hea : e.2.active with
      | true =>
        rw [List.filter_cons_of_pos (by simp [hea])]
        rw [show getVar (e :: rest.filter fun f => f.2.active) a
              = getVar (rest.filter fun f => f.2.active) a by simp [getVar, he]]
        exact ih hg'
      | false =>
        rw [List.filter_cons_of_neg (by simp [hea])]
        exact ih hg'

/-!
Run invariant machinery.
-/

theorem forall2_runRel_extend (L : List Addr) (name : Addr)
    (m1 base : List (Addr × RandomVariableRecord))
    (h : List.Forall₂ (RunRel L) m1 base)
    (hne : ∀ e ∈ m1, e.1 ≠ name) :
    List.Forall₂ (RunRel (L ++ [name])) m1 base := by
  induction h with
  | nil => exact List.Forall₂.nil
  | @cons e e0 l1 l2 hr hrest ih =>
    refine List.Forall₂.cons ?_ (ih fun f hf => hne f (by simp [hf]))
    obtain ⟨h1, h2, h3⟩ := hr
    refine ⟨h1, fun hn => h2 fun hL => hn (by simp [hL]), fun hn => ?_⟩
    rcases List.mem_append.mp hn with hL | hL
    · exact h3 hL
    · exact absurd (by simpa using hL) (hne e (by simp))

theorem forall2_runRel_setVar (L : List Addr) (name : Addr) (r' : RandomVariableRecord)
    (hact : r'.active = true) (m1 base : List (Addr × RandomVariableRecord))
    (h : List.Forall₂ (RunRel L) m1 base) (hnd : (keys m1).Nodup)
    (hmem : name ∈ keys m1) :
    List.Forall₂ (RunRel (L ++ [name])) (setVar m1 name r') base := by
  revert hnd hmem
  induction h with
  | nil => intro _ hmem; simp [keys] at hmem
  | @cons e e0 l1 l2 hr hrest ih =>
    intro hnd hmem
    simp only [keys, List.map_cons, List.nodup_cons] at hnd
    by_cases he : e.1 = name
    · rw [show setVar (e :: l1) name r' = (name, r') :: l1 by simp [setVar, he]]
      refine List.Forall₂.cons ⟨he.symm.trans hr.1, fun hn => absurd (by simp) hn,
        fun _ => hact⟩ ?_
      apply forall2_runRel_extend L name l1 l2 hrest
      intro f hf hfn
      exact hnd.1 (by rw [he, ← hfn] at hnd ⊢; exact List.mem_map_of_mem Prod.fst hf)
    · have hmem' : name ∈ keys l1 := by
        simp only [keys, List.map_cons, List.mem_cons] at hmem
        rcases hmem with h | h
        · exact absurd h.symm he
        · exact h
      rw [show setVar (e :: l1) name r' = e :: setVar l1 name r' by simp [setVar, he]]
      refine List.Forall₂.cons ?_ (ih hnd.2 hmem')
      obtain ⟨h1, h2, h3⟩ := hr
      refine ⟨h1, fun hn => h2 fun hL => hn (by simp [hL]), fun hn => ?_⟩
      rcases List.mem_append.mp hn with hL | hL
      · exact h3 hL
      · exact absurd (by simpa using hL) he

theorem runInv_setVar (base : List (Addr × RandomVariableRecord)) (L : List Addr)
    (m : List (Addr × RandomVariableRecord)) (name : Addr) (r' : RandomVariableRecord)
    (hact : r'.active = true) (hnd : (keys m).Nodup) (hinv : RunInv base L m) :
    RunInv base (L ++ [name]) (setVar m name r') ∧ (keys (setVar m name r')).Nodup := by
  obtain ⟨hget, m1, fr, rfl, hf2, hfr⟩ := hinv
  have hget' : ∀ a ∈ L ++ [name], ∃ r,
      getVar (setVar (m1 ++ fr) name r') a = some r ∧ r.active = true := by
    intro a ha
    by_cases han : a = name
    · subst han
      exact ⟨r', getVar_setVar_self _ a r', hact⟩
    · rcases List.mem_append.mp ha with hL | hL
      · obtain ⟨r, hr1, hr2⟩ := hget a hL
        exact ⟨r, (getVar_setVar_ne _ name a r' fun hh => han hh.symm).trans hr1, hr2⟩
      · exact absurd (by simpa using hL) han
  refine ⟨⟨hget', ?_⟩, nodup_keys_setVar _ name r' hnd⟩
  by_cases hmem : name ∈ keys m1
  · refine ⟨setVar m1 name r', fr, setVar_append_left m1 fr name r' hmem, ?_, ?_⟩
    · exact forall2_runRel_setVar L name r' hact m1 base hf2
        (by
          rw [show keys (m1 ++ fr) = keys m1 ++ keys fr by simp [keys]] at hnd
          exact (List.nodup_append.mp hnd).1) hmem
    · intro e he
      exact ⟨(hfr e he).1, by simp [(hfr e he).2]⟩
  · refine ⟨m1, setVar fr name r', setVar_append_right m1 fr name r' hmem, ?_, ?_⟩
    · apply forall2_runRel_extend L name m1 base hf2
      intro e he hen
      exact hmem (by rw [← hen]; exact List.mem_map_of_mem Prod.fst he)
    · intro e he
      rcases mem_setVar fr name r' e he with h | h
      · exact ⟨(hfr e h).1, by simp [(hfr e h).2]⟩
      · subst h
        exact ⟨hact, by simp⟩

theorem runOps_runInv (E : Env) (ops : List Op) (base : List (Addr × RandomVariableRecord)) :
    ∀ (s : RandomExecutionTrace × List Value) (L : List Addr),
      (keys s.1.vars).Nodup → RunInv base L s.1.vars →
      RunInv base (L ++ lookAddrs ops) (runOps E s ops).1.vars ∧
        (keys (runOps E s ops).1.vars).Nodup := by
  induction ops with
  | nil =>
    intro s L hnd hinv
    constructor
    · simpa [lookAddrs] using hinv
    · exact hnd
  | cons o rest ih =>
    intro s L hnd hinv
    cases o with
    | look name erp params st cv =>
      obtain ⟨rec, ds', nlp, heq, hact⟩ := lookup_shape E s.1 name erp params st cv s.2
      have hstep : runOps E s (Op.look name erp params st cv :: rest)
          = runOps E ({ s.1 with vars := setVar s.1.vars name rec,
                                 logprob := s.1.logprob + rec.logprob,
                                 newlogprob := nlp }, ds') rest := by
        show runOps E (runOp E s (Op.look name erp params st cv)) rest = _
        simp [runOp, heq]
      have step := runInv_setVar base L s.1.vars name rec hact hnd hinv
      have hrest := ih ({ s.1 with vars := setVar s.1.vars name rec,
                                   logprob := s.1.logprob + rec.logprob,
                                   newlogprob := nlp }, ds') (L ++ [name]) step.2 step.1
      rw [hstep]
      rw [show L ++ lookAddrs (Op.look name erp params st cv :: rest)
            = (L ++ [name]) ++ lookAddrs rest by simp [lookAddrs]]
      exact hrest
    | factor x =>
      have hrest := ih (addFactor s.1 x, s.2) L hnd hinv
      rw [show runOps E s (Op.factor x :: rest)
            = runOps E (addFactor s.1 x, s.2) rest from rfl]
      rw [show L ++ lookAddrs (Op.factor x :: rest) = L ++ lookAddrs rest from rfl]
      exact hrest
    | condition b =>
      have hrest := ih (conditionOn s.1 b, s.2) L hnd hinv
      rw [show runOps E s (Op.condition b :: rest)
            = runOps E (conditionOn s.1 b, s.2) rest from rfl]
      rw [show L ++ lookAddrs (Op.condition b :: rest) = L ++ lookAddrs rest from rfl]
      exact hrest

theorem inactiveSum_forall2 (L : List Addr) (m1 base : List (Addr × RandomVariableRecord))
    (h : List.Forall₂ (RunRel L) m1 base) :
    inactiveSum m1
      = ((base.filter fun e => decide (e.1 ∉ L)).map fun e => e.2.logprob).sum := by
  induction h with
  | nil => simp [inactiveSum]
  | @cons e e0 l1 l2 hr hrest ih =>
    by_cases hL : e0.1 ∈ L
    · have he1 : e.1 ∈ L := by rw [hr.1]; exact hL
      have hea := hr.2.2 he1
      rw [inactiveSum_cons, hea]
      rw [List.filter_cons_of_neg (by simp [hL])]
      simpa using ih
    · have he1 : e.1 ∉ L := by rw [hr.1]; exact hL
      have he := hr.2.1 he1
      rw [inactiveSum_cons, List.filter_cons_of_pos (by simp [hL]), he]
      simp only [List.map_cons, List.sum_cons]
      rw [show ((e0.1, deactivate e0.2).2.active) = false from rfl]
      simp [show (deactivate e0.2).logprob = e0.2.logprob from rfl, ih]

theorem forall2_runRel_getVar_not_looked (L : List Addr)
    (m1 base : List (Addr × RandomVariableRecord))
    (h : List.Forall₂ (RunRel L) m1 base) :
    ∀ a, a ∉ L → getVar m1 a = (getVar base a).map deactivate := by
  induction h with
  | nil => intro a _; simp [getVar]
  | @cons e e0 l1 l2 hr hrest ih =>
    intro a ha
    by_cases he0 : e0.1 = a
    · have he1 : e.1 ∉ L := by rw [hr.1]; exact he0 ▸ ha
      have he := hr.2.1 he1
      rw [show getVar (e :: l1) a = some e.2 by simp [getVar, hr.1.trans he0]]
      rw [show getVar (e0 :: l2) a = some e0.2 by simp [getVar, he0]]
      simp [he]
    · have hee : e.1 ≠ a := fun hh => he0 (hr.1.symm.trans hh)
      rw [show getVar (e :: l1) a = getVar l1 a by simp [getVar, hee]]
      rw [show getVar (e0 :: l2) a = getVar l2 a by simp [getVar, he0]]
      exact ih a ha

/-!
Projection lemmas for `traceUpdate` and the characterization of its run.
-/

theorem traceUpdate_vars (E : Env) (t : RandomExecutionTrace) (prog : Prog) (ds : List Value) :
    (traceUpdate E t prog ds).vars
      = (runResult E t prog ds).1.vars.filter fun e => e.2.active := rfl

theorem traceUpdate_logprob (E : Env) (t : RandomExecutionTrace) (prog : Prog) (ds : List Value) :
    (traceUpdate E t prog ds).logprob = (runResult E t prog ds).1.logprob := rfl

theorem traceUpdate_newlogprob (E : Env) (t : RandomExecutionTrace) (prog : Prog) (ds : List Value) :
    (traceUpdate E t prog ds).newlogprob = (runResult E t prog ds).1.newlogprob := rfl

theorem traceUpdate_oldlogprob (E : Env) (t : RandomExecutionTrace) (prog : Prog) (ds : List Value) :
    (traceUpdate E t prog ds).oldlogprob = inactiveSum (runResult E t prog ds).1.vars := rfl

theorem runInv_init (base : List (Addr × RandomVariableRecord)) :
    RunInv base [] (markAllInactive base) := by
  refine ⟨by simp, markAllInactive base, [], by simp, ?_, by simp⟩
  induction base with
  | nil => exact List.Forall₂.nil
  | cons e rest ih =>
    simp only [markAllInactive, List.map_cons] at ih ⊢
    exact List.Forall₂.cons ⟨rfl, fun _ => rfl, fun h => absurd h (by simp)⟩ ih

theorem traceUpdate_char (E : Env) (t : RandomExecutionTrace) (prog : Prog) (ds : List Value)
    (hnd : (keys t.vars).Nodup) :
    RunInv t.vars (lookAddrs prog.ops) (runResult E t prog ds).1.vars ∧
      (keys (runResult E t prog ds).1.vars).Nodup := by
  have hk : (keys (preRun t).vars).Nodup := by
    rw [show (preRun t).vars = markAllInactive t.vars from rfl, keys_markAllInactive]
    exact hnd
  have h0 : RunInv t.vars [] (preRun t).vars := runInv_init t.vars
  have := runOps_runInv E prog.ops t.vars (preRun t, ds) [] hk h0
  simpa [runResult] using this

theorem forall2_runRel_active_mem (L : List Addr)
    (m1 base : List (Addr × RandomVariableRecord))
    (h : List.Forall₂ (RunRel L) m1 base) :
    ∀ e ∈ m1, e.2.active = true → e.1 ∈ L := by
  induction h with
  | nil => intro e he; simp at he
  | @cons f f0 l1 l2 hr hrest ih =>
    intro e he hea
    rcases List.mem_cons.mp he with rfl | he'
    · by_contra hL
      have := hr.2.1 hL
      rw [this] at hea
      exact absurd hea (by simp [deactivate])
    · exact ih e he' hea

theorem traceUpdate_all_active (E : Env) (t : RandomExecutionTrace) (prog : Prog)
    (ds : List Value) :
    ∀ e ∈ (traceUpdate E t prog ds).vars, e.2.active = true := by
  intro e he
  rw [traceUpdate_vars] at he
  simpa using (List.mem_filter.mp he).2

theorem traceUpdate_keys_nodup (E : Env) (t : RandomExecutionTrace) (prog : Prog)
    (ds : List Value) (hnd : (keys t.vars).Nodup) :
    (keys (traceUpdate E t prog ds).vars).Nodup := by
  rw [traceUpdate_vars]
  have hk := (traceUpdate_char E t prog ds hnd).2
  exact List.Nodup.sublist
    ((List.filter_sublist (runResult E t prog ds).1.vars).map Prod.fst) hk

theorem traceUpdate_mem_look (E : Env) (t : RandomExecutionTrace) (prog : Prog)
    (ds : List Value) (hnd : (keys t.vars).Nodup) :
    ∀ e ∈ (traceUpdate E t prog ds).vars, e.1 ∈ lookAddrs prog.ops := by
  intro e he
  obtain ⟨⟨hget, m1, fr, hm, hf2, hfr⟩, hk⟩ := traceUpdate_char E t prog ds hnd
  rw [traceUpdate_vars] at he
  have he' : e ∈ (runResult E t prog ds).1.vars := (List.mem_filter.mp he).1
  have hea : e.2.active = true := by simpa using (List.mem_filter.mp he).2
  rw [hm] at he'
  rcases List.mem_append.mp he' with h | h
  · exact forall2_runRel_active_mem _ _ _ hf2 e h hea
  · exact (hfr e h).2

/-!
Record-content lemmas for `lookup`.
-/

theorem freshLookup_vars (E : Env) (t : RandomExecutionTrace) (name : Addr) (erp : Nat)
    (params : Params) (st : Bool) (cv : Option Value) (ds : List Value) :
    (freshLookup E t name erp params st cv ds).1.vars
      = setVar t.vars name
          { erp := erp, params := params,
            val := if condTruthy cv then condGet cv
                   else (E erp).sample params (drawNext ds).1,
            logprob := (E erp).logpdf
              (if condTruthy cv then condGet cv
               else (E erp).sample params (drawNext ds).1) params,
            active := true, conditioned := cv.isSome, structural := st } := by
  cases hc : condTruthy cv <;> simp [freshLookup, hc]

theorem mustCreate_false_of (r0 : RandomVariableRecord) (erp : Nat) (st : Bool)
    (cv : Option Value) (h1 : r0.erp = erp) (h2 : r0.structural = st)
    (h3 : condTruthy cv = true → r0.val = condGet cv) :
    mustCreate (some r0) erp st cv = false := by
  simp only [mustCreate, Bool.or_eq_false_iff]
  refine ⟨⟨by simp [h1], by simp [h2]⟩, ?_⟩
  cases hct : condTruthy cv with
  | false => simp
  | true => simp [h3 hct]

theorem activate_eq (r : RandomVariableRecord) (h : r.active = true) :
    ∀ r0, r0 = r ∨ r0 = deactivate r → { r0 with active := true } = r := by
  intro r0 h0
  rcases h0 with rfl | rfl
  · rcases r0 with ⟨e1, p1, v1, l1, a1, c1, s1⟩
    simp at h
    simp [h]
  · rcases r with ⟨e1, p1, v1, l1, a1, c1, s1⟩
    simp at h
    simp [deactivate, h]

/-- The record stored at the address right after any `lookup` matches the call:
same ERP identity, structural flag and params, it is active, and it agrees
with a truthy conditioned value. -/
theorem lookup_post_record (E : Env) (t : RandomExecutionTrace) (name : Addr) (erp : Nat)
    (params : Params) (st : Bool) (cv : Option Value) (ds : List Value) :
    ∃ r, getVar (lookup E t name erp params st cv ds).1.vars name = some r ∧
      r.erp = erp ∧ r.structural = st ∧ r.params = params ∧ r.active = true ∧
      (condTruthy cv = true → r.val = condGet cv) := by
  cases hmc : mustCreate (getVar t.vars name) erp st cv with
  | true =>
    rw [lookup_eq_fresh E t name erp params st cv ds hmc]
    refine ⟨{ erp := erp, params := params,
              val := if condTruthy cv then condGet cv
                     else (E erp).sample params (drawNext ds).1,
              logprob := (E erp).logpdf
                (if condTruthy cv then condGet cv
                 else (E erp).sample params (drawNext ds).1) params,
              active := true, conditioned := cv.isSome, structural := st },
            ?_, rfl, rfl, rfl, rfl, fun hct => by
              show (if condTruthy cv then condGet cv
                    else (E erp).sample params (drawNext ds).1) = condGet cv
              rw [hct]
              simp⟩
    rw [freshLookup_vars]
    exact getVar_setVar_self _ name _
  | false =>
    cases hg : getVar t.vars name with
    | none => rw [hg] at hmc; simp [mustCreate] at hmc
    | some record0 =>
      rw [hg] at hmc
      have hparts : record0.erp = erp ∧ record0.structural = st ∧
          (condTruthy cv = true → record0.val = condGet cv) := by
        simp only [mustCreate, Bool.or_eq_false_iff, Bool.and_eq_false_iff] at hmc
        refine ⟨by simpa using hmc.1.1,
          (show st = record0.structural by simpa using hmc.1.2).symm, fun hct => ?_⟩
        rcases hmc.2 with h | h
        · rw [hct] at h; exact absurd h (by simp)
        · have : condGet cv = record0.val := by simpa using h
          exact this.symm
      rw [lookup_eq_reuse E t name erp params st cv ds record0 hg hmc]
      cases hp : record0.params != params with
      | true =>
        refine ⟨{ erp := record0.erp, params := params, val := record0.val,
                  logprob := (E erp).logpdf record0.val params, active := true,
                  conditioned := record0.conditioned, structural := record0.structural },
                ?_, hparts.1, hparts.2.1, rfl, rfl, fun hct => hparts.2.2 hct⟩
        simp only [hp, if_true]
        exact getVar_setVar_self _ name _
      | false =>
        have hpp : record0.params = params := by simpa using hp
        refine ⟨{ erp := record0.erp, params := record0.params, val := record0.val,
                  logprob := record0.logprob, active := true,
                  conditioned := record0.conditioned, structural := record0.structural },
                ?_, hparts.1, hparts.2.1, hpp, rfl, fun hct => hparts.2.2 hct⟩
        simp only [hp, Bool.false_eq_true, if_false]
        exact getVar_setVar_self _ name _

/-- Exact form of a pure reuse: when the stored record agrees with the call in
every field the `lookup` only reactivates it and adds its log-density. -/
theorem lookup_reuse_exact (E : Env) (t : RandomExecutionTrace) (name : Addr) (erp : Nat)
    (params : Params) (st : Bool) (cv : Option Value) (ds : List Value)
    (r record0 : RandomVariableRecord)
    (hg : getVar t.vars name = some record0)
    (hrec : record0 = r ∨ record0 = deactivate r)
    (h1 : r.erp = erp) (h2 : r.structural = st) (h3 : r.params = params)
    (h4 : r.active = true) (h5 : condTruthy cv = true → r.val = condGet cv) :
    lookup E t name erp params st cv ds =
      ({ t with vars := setVar t.vars name r,
                logprob := t.logprob + r.logprob }, r.val, ds) := by
  have hfields : record0.erp = erp ∧ record0.structural = st ∧ record0.params = params ∧
      record0.val = r.val ∧ record0.logprob = r.logprob := by
    rcases hrec with rfl | rfl
    · exact ⟨h1, h2, h3, rfl, rfl⟩
    · exact ⟨h1, h2, h3, rfl, rfl⟩
  have hmc : mustCreate (some record0) erp st cv =
      false :=
    mustCreate_false_of record0 erp st cv hfields.1 hfields.2.1
      fun hct => by rw [hfields.2.2.2.1]; exact h5 hct
  rw [lookup_eq_reuse E t name erp params st cv ds record0 hg hmc]
  have hbne : (record0.params != params) = false := by simp [hfields.2.2.1]
  simp only [hbne, Bool.false_eq_true, if_false]
  rw [activate_eq r h4 record0 hrec, hfields.2.2.2.1, hfields.2.2.2.2]

theorem runOps_look_char (E : Env) (ops : List Op) :
    ∀ s : RandomExecutionTrace × List Value, (lookAddrs ops).Nodup →
      ∀ o ∈ ops, MatchesOp (runOps E s ops).1.vars o := by
  induction ops with
  | nil => intro s _ o ho; simp at ho
  | cons o0 rest ih =>
    intro s hnd o ho
    have hnd' : (lookAddrs rest).Nodup := by
      cases o0 with
      | look n e p st cv => exact (List.nodup_cons.mp (by simpa [lookAddrs] using hnd)).2
      | factor x => simpa [lookAddrs] using hnd
      | condition b => simpa [lookAddrs] using hnd
    rcases List.mem_cons.mp ho with rfl | hor
    · cases ho2 : o with
      | look name erp params st cv =>
        subst ho2
        have hnotin : name ∉ lookAddrs rest :=
          (List.nodup_cons.mp (by simpa [lookAddrs] using hnd)).1
        obtain ⟨r, hr, h1, h2, h3, h4, h5⟩ :=
          lookup_post_record E s.1 name erp params st cv s.2
        have hrun : (runOp E s (Op.look name erp params st cv)).1
            = (lookup E s.1 name erp params st cv s.2).1 := by
          obtain ⟨rec, ds', nlp, heq, _⟩ := lookup_shape E s.1 name erp params st cv s.2
          simp [runOp, heq]
        refine ⟨r, ?_, h1, h2, h3, h4, h5⟩
        rw [show runOps E s (Op.look name erp params st cv :: rest)
              = runOps E (runOp E s (Op.look name erp params st cv)) rest from rfl]
        rw [runOps_getVar_not_looked E rest _ name hnotin, hrun]
        exact hr
      | factor x => subst ho2; trivial
      | condition b => subst ho2; trivial
    · exact ih (runOp E s o0) hnd' o hor

theorem traceUpdate_matches (E : Env) (t : RandomExecutionTrace) (prog : Prog)
    (ds : List Value) (hop : (lookAddrs prog.ops).Nodup) :
    ∀ o ∈ prog.ops, MatchesOp (traceUpdate E t prog ds).vars o := by
  intro o ho
  have hchar := runOps_look_char E prog.ops (preRun t, ds) hop o ho
  cases o with
  | look name erp params st cv =>
    obtain ⟨r, hr, h1, h2, h3, h4, h5⟩ := hchar
    refine ⟨r, ?_, h1, h2, h3, h4, h5⟩
    rw [traceUpdate_vars]
    exact getVar_filter_of_active _ name r hr h4
  | factor x => trivial
  | condition b => trivial

theorem mem_lookAddrs_exists (ops : List Op) :
    ∀ a ∈ lookAddrs ops, ∃ erp params st cv, Op.look a erp params st cv ∈ ops := by
  induction ops with
  | nil => intro a ha; simp [lookAddrs] at ha
  | cons o rest ih =>
    intro a ha
    cases o with
    | look name erp params st cv =>
      rcases List.mem_cons.mp (by simpa [lookAddrs] using ha) with rfl | h
      · exact ⟨erp, params, st, cv, by simp⟩
      · obtain ⟨e2, p2, s2, c2, hm⟩ := ih a h
        exact ⟨e2, p2, s2, c2, by simp [hm]⟩
    | factor x =>
      obtain ⟨e2, p2, s2, c2, hm⟩ := ih a (by simpa [lookAddrs] using ha)
      exact ⟨e2, p2, s2, c2, by simp [hm]⟩
    | condition b =>
      obtain ⟨e2, p2, s2, c2, hm⟩ := ih a (by simpa [lookAddrs] using ha)
      exact ⟨e2, p2, s2, c2, by simp [hm]⟩

/-!
Second-run (reuse idempotence) machinery.
-/

theorem forall2_reRel_init (m : List (Addr × RandomVariableRecord)) :
    List.Forall₂ ReRel (markAllInactive m) m := by
  induction m with
  | nil => exact List.Forall₂.nil
  | cons e rest ih =>
    simp only [markAllInactive, List.map_cons] at ih ⊢
    exact List.Forall₂.cons ⟨rfl, Or.inr rfl⟩ ih

theorem forall2_reRel_getVar (m target : List (Addr × RandomVariableRecord))
    (h : List.Forall₂ ReRel m target) :
    ∀ a, (getVar m a = none ∧ getVar target a = none) ∨
      ∃ r1, getVar target a = some r1 ∧
        (getVar m a = some r1 ∨ getVar m a = some (deactivate r1)) := by
  induction h with
  | nil => intro a; exact Or.inl ⟨rfl, rfl⟩
  | @cons e e1 l1 l2 hr hrest ih =>
    intro a
    by_cases ha : e1.1 = a
    · have hea : e.1 = a := hr.1.trans ha
      right
      refine ⟨e1.2, by simp [getVar, ha], ?_⟩
      rcases hr.2 with h' | h'
      · left; simp [getVar, hea, h', ha]
      · right; simp [getVar, hea, h', ha]
    · have hea : e.1 ≠ a := fun hh => ha (hr.1.symm.trans hh)
      rw [show getVar (e :: l1) a = getVar l1 a by simp [getVar, hea]]
      rw [show getVar (e1 :: l2) a = getVar l2 a by simp [getVar, ha]]
      exact ih a

theorem forall2_reRel_setVar (m target : List (Addr × RandomVariableRecord))
    (h : List.Forall₂ ReRel m target) (name : Addr) (r1 : RandomVariableRecord)
    (hg : getVar target name = some r1) :
    List.Forall₂ ReRel (setVar m name r1) target := by
  revert hg
  induction h with
  | nil => intro hg; simp [getVar] at hg
  | @cons e e1 l1 l2 hr hrest ih =>
    intro hg
    by_cases he : e.1 = name
    · have he1 : e1.1 = name := hr.1.symm.trans he
      have hr1 : e1.2 = r1 := by
        have := hg
        rw [show getVar (e1 :: l2) name = some e1.2 by simp [getVar, he1]] at this
        injection this
      rw [show setVar (e :: l1) name r1 = (name, r1) :: l1 by simp [setVar, he]]
      exact List.Forall₂.cons
        ⟨he1.symm, Or.inl (Prod.ext_iff.mpr ⟨he1.symm, hr1.symm⟩)⟩ hrest
    · have he1 : e1.1 ≠ name := fun hh => he (hr.1.trans hh)
      have hg' : getVar l2 name = some r1 := by
        rwa [show getVar (e1 :: l2) name = getVar l2 name by simp [getVar, he1]] at hg
      rw [show setVar (e :: l1) name r1 = e :: setVar l1 name r1 by simp [setVar, he]]
      exact List.Forall₂.cons hr (ih hg')

theorem forall2_reRel_eq (m target : List (Addr × RandomVariableRecord))
    (h : List.Forall₂ ReRel m target) (hnd : (keys target).Nodup)
    (hget : ∀ e ∈ target, getVar m e.1 = some e.2) : m = target := by
  revert hnd hget
  induction h with
  | nil => intro _ _; rfl
  | @cons e e1 l1 l2 hr hrest ih =>
    intro hnd hget
    simp only [keys, List.map_cons, List.nodup_cons] at hnd
    have h1 : e = e1 := by
      have hh := hget e1 (by simp)
      rw [show getVar (e :: l1) e1.1 = some e.2 by simp [getVar, hr.1]] at hh
      exact Prod.ext_iff.mpr ⟨hr.1, by injection hh⟩
    have htail : ∀ f ∈ l2, getVar l1 f.1 = some f.2 := by
      intro f hf
      have hne : e.1 ≠ f.1 := by
        rw [hr.1]
        intro hh
        exact hnd.1 (hh ▸ List.mem_map_of_mem Prod.fst hf)
      have hh := hget f (by simp [hf])
      rwa [show getVar (e :: l1) f.1 = getVar l1 f.1 by simp [getVar, hne]] at hh
    rw [h1, ih hnd.2 htail]

theorem runOps_second (E : Env) (ops : List Op)
    (target : List (Addr × RandomVariableRecord))
    (htm : ∀ o ∈ ops, MatchesOp target o) :
    ∀ s : RandomExecutionTrace × List Value, List.Forall₂ ReRel s.1.vars target →
      List.Forall₂ ReRel (runOps E s ops).1.vars target ∧
        (runOps E s ops).1.newlogprob = s.1.newlogprob ∧
        (runOps E s ops).2 = s.2 := by
  induction ops with
  | nil => intro s h; exact ⟨h, rfl, rfl⟩
  | cons o rest ih =>
    have htm' : ∀ o' ∈ rest, MatchesOp target o' := fun o' ho' => htm o' (by simp [ho'])
    intro s h
    cases o with
    | look name erp params st cv =>
      obtain ⟨r, hgt, h1, h2, h3, h4, h5⟩ := htm (Op.look name erp params st cv) (by simp)
      rcases forall2_reRel_getVar s.1.vars target h name with ⟨_, hnone⟩ | ⟨r1, hgt', hror⟩
      · rw [hgt] at hnone; exact absurd hnone (by simp)
      · have hr1 : r1 = r := by
          rw [hgt] at hgt'
          exact (Option.some.inj hgt').symm
        rw [hr1] at hror
        obtain ⟨record0, hg0, hrec⟩ : ∃ record0, getVar s.1.vars name = some record0 ∧
            (record0 = r ∨ record0 = deactivate r) := by
          rcases hror with h' | h'
          · exact ⟨r, h', Or.inl rfl⟩
          · exact ⟨deactivate r, h', Or.inr rfl⟩
        have hlq := lookup_reuse_exact E s.1 name erp params st cv s.2 r record0
          hg0 hrec h1 h2 h3 h4 h5
        have hstep : runOps E s (Op.look name erp params st cv :: rest)
            = runOps E ({ s.1 with vars := setVar s.1.vars name r,
                                   logprob := s.1.logprob + r.logprob }, s.2) rest := by
          show runOps E (runOp E s (Op.look name erp params st cv)) rest = _
          simp [runOp, hlq]
        have hnew : List.Forall₂ ReRel (setVar s.1.vars name r) target :=
          forall2_reRel_setVar s.1.vars target h name r hgt
        have hrest := ih htm' ({ s.1 with vars := setVar s.1.vars name r,
                                          logprob := s.1.logprob + r.logprob }, s.2) hnew
        rw [hstep]
        exact ⟨hrest.1, hrest.2.1, hrest.2.2⟩
    | factor x =>
      have hrest := ih htm' (addFactor s.1 x, s.2) h
      exact ⟨hrest.1, hrest.2.1, hrest.2.2⟩
    | condition b =>
      have hrest := ih htm' (conditionOn s.1 b, s.2) h
      exact ⟨hrest.1, hrest.2.1, hrest.2.2⟩

theorem freshLookup_newlogprob (E : Env) (t : RandomExecutionTrace) (name : Addr)
    (erp : Nat) (params : Params) (st : Bool) (cv : Option Value) (ds : List Value) :
    (freshLookup E t name erp params st cv ds).1.newlogprob
      = t.newlogprob + (E erp).logpdf
          (if condTruthy cv then condGet cv
           else (E erp).sample params (drawNext ds).1) params := by
  cases hc : condTruthy cv <;> simp [freshLookup, hc]

theorem mustCreate_iff (r? : Option RandomVariableRecord) (erp : Nat) (st : Bool)
    (cv : Option Value) :
    mustCreate r? erp st cv = true ↔
      r? = none ∨ ∃ r0, r? = some r0 ∧
        (r0.erp ≠ erp ∨ r0.structural ≠ st ∨
          ∃ c, cv = some c ∧ c ≠ 0 ∧ c ≠ r0.val) := by
  cases r? with
  | none => simp [mustCreate]
  | some r0 =>
    constructor
    · intro h
      right
      refine ⟨r0, rfl, ?_⟩
      simp only [mustCreate, Bool.or_eq_true, bne_iff_ne, Bool.and_eq_true] at h
      rcases h with (h | h) | h
      · exact Or.inl h
      · exact Or.inr (Or.inl (Ne.symm h))
      · right; right
        cases cv with
        | none => simp [condTruthy] at h
        | some c =>
          refine ⟨c, rfl, ?_, ?_⟩
          · simpa [condTruthy] using h.1
          · simpa [condGet] using h.2
    · intro h
      rcases h with h | ⟨r0', hr0, h⟩
      · simp at h
      · have hrr : r0' = r0 := (Option.some.inj hr0).symm
        subst hrr
        simp only [mustCreate, Bool.or_eq_true, bne_iff_ne, Bool.and_eq_true]
        rcases h with h | h | ⟨c, hc, hc0, hcv⟩
        · exact Or.inl (Or.inl h)
        · exact Or.inl (Or.inr (Ne.symm h))
        · subst hc
          right
          refine ⟨by simpa [condTruthy] using hc0, by simpa [condGet] using hcv⟩

/-!
Claim theorems.
-/

/-- C1 counterexample: the claim "after any completed update(), logProb equals
the sum of logDensity over the records active at the end plus the factors added
during the call" fails for a computation that looks up the same address twice:
with `progDup` (two lookups at address 0, same ERP and params) on an empty
trace and oracle stream [3], logProb is 16 while the active records sum to 8
and no factors were added. -/
theorem C1_counterexample :
    ¬ ((traceUpdate Etest trace0 progDup [3]).logprob
        = activeSum (traceUpdate Etest trace0 progDup [3]).vars
            + factorSum progDup.ops) := by
  decide

/-- C1 (amended): after any completed update() whose looked-up addresses are
pairwise distinct, the trace's logProb equals the sum of logDensity over all
records active at the end of the call plus the sum of all factors added via
addFactor during that call. -/
theorem C1_accounting (E : Env) (t : RandomExecutionTrace) (prog : Prog) (ds : List Value)
    (hnd : (lookAddrs prog.ops).Nodup) :
    (traceUpdate E t prog ds).logprob
      = activeSum (traceUpdate E t prog ds).vars + factorSum prog.ops := by
  have hinact : ∀ a ∈ lookAddrs prog.ops, ∀ r,
      getVar (preRun t, ds).1.vars a = some r → r.active = false := by
    intro a _ r hr
    rw [show (preRun t, ds).1.vars = markAllInactive t.vars from rfl,
      getVar_markAllInactive] at hr
    cases hg : getVar t.vars a with
    | none => rw [hg] at hr; simp at hr
    | some r0 =>
      rw [hg] at hr
      have : deactivate r0 = r := by simpa using hr
      rw [← this]
      rfl
  have hacct := runOps_acct E prog.ops (preRun t, ds) hnd hinact
  rw [traceUpdate_logprob, traceUpdate_vars, activeSum_filter]
  have h0 : (preRun t, ds).1.logprob = 0 := rfl
  have h1 : activeSum (preRun t, ds).1.vars = 0 := activeSum_markAllInactive t.vars
  rw [h0, h1] at hacct
  rw [show runResult E t prog ds = runOps E (preRun t, ds) prog.ops from rfl]
  linarith [hacct]

/-- C1 witness: concrete instance of the amended accounting invariant (one
lookup plus one factor). -/
theorem C1_accounting_witness :
    (traceUpdate Etest trace0 progLF [3]).logprob
      = activeSum (traceUpdate Etest trace0 progLF [3]).vars + factorSum progLF.ops :=
  C1_accounting Etest trace0 progLF [3] (by decide)

/-- C2 counterexample: a supplied but falsy conditionedValue (0) that differs
from the stored value (5) does NOT force a fresh record, contradicting the
claimed iff: the lookup reuses the stored record (value still 5, conditioned
still false, newLogProb unchanged, oracle stream untouched). -/
theorem C2_counterexample :
    (some (0 : Value)).isSome = true ∧ (0 : Value) ≠ 5 ∧
    (lookup Etest traceA 0 0 7 false (some 0) [9]).1.newlogprob = traceA.newlogprob ∧
    (getVar (lookup Etest traceA 0 0 7 false (some 0) [9]).1.vars 0).map
        (fun r => r.conditioned) = some false ∧
    (getVar (lookup Etest traceA 0 0 7 false (some 0) [9]).1.vars 0).map
        (fun r => r.val) = some 5 ∧
    (lookup Etest traceA 0 0 7 false (some 0) [9]).2.2 = [9] := by
  decide

/-- C2 (amended): a fresh record is created (with its log-density added to
newLogProb) iff no record exists at the address, or the stored record's ERP
identity differs, or its structural flag differs, or a TRUTHY conditionedValue
is supplied and differs from the stored value; otherwise the stored record is
reused (newLogProb and the oracle stream untouched), with params updated and
logDensity recomputed for the stored value exactly when params differ.  In all
cases the record's logDensity is added to logProb, the record is marked active,
and its value is returned. -/
theorem C2_lookup_rule (E : Env) (t : RandomExecutionTrace) (name : Addr) (erp : Nat)
    (params : Params) (st : Bool) (cv : Option Value) (ds : List Value) :
    ((getVar t.vars name = none ∨
        ∃ r0, getVar t.vars name = some r0 ∧
          (r0.erp ≠ erp ∨ r0.structural ≠ st ∨
            ∃ c, cv = some c ∧ c ≠ 0 ∧ c ≠ r0.val)) →
      ∃ rec, getVar (lookup E t name erp params st cv ds).1.vars name = some rec ∧
        rec = { erp := erp, params := params, val := rec.val,
                logprob := (E erp).logpdf rec.val params, active := true,
                conditioned := cv.isSome, structural := st } ∧
        (lookup E t name erp params st cv ds).1.newlogprob
          = t.newlogprob + rec.logprob) ∧
    (¬ (getVar t.vars name = none ∨
        ∃ r0, getVar t.vars name = some r0 ∧
          (r0.erp ≠ erp ∨ r0.structural ≠ st ∨
            ∃ c, cv = some c ∧ c ≠ 0 ∧ c ≠ r0.val)) →
      ∃ r0, getVar t.vars name = some r0 ∧
        (lookup E t name erp params st cv ds).1.newlogprob = t.newlogprob ∧
        (lookup E t name erp params st cv ds).2.2 = ds ∧
        getVar (lookup E t name erp params st cv ds).1.vars name = some
          { r0 with params := params,
                    logprob := if r0.params = params then r0.logprob
                               else (E erp).logpdf r0.val params,
                    active := true }) ∧
    (∃ rec, getVar (lookup E t name erp params st cv ds).1.vars name = some rec ∧
      rec.active = true ∧
      (lookup E t name erp params st cv ds).1.logprob = t.logprob + rec.logprob ∧
      (lookup E t name erp params st cv ds).2.1 = rec.val) := by
  refine ⟨?_, ?_, ?_⟩
  · intro hcond
    have hmc : mustCreate (getVar t.vars name) erp st cv = true :=
      (mustCreate_iff (getVar t.vars name) erp st cv).mpr hcond
    rw [lookup_eq_fresh E t name erp params st cv ds hmc]
    refine ⟨{ erp := erp, params := params,
              val := if condTruthy cv then condGet cv
                     else (E erp).sample params (drawNext ds).1,
              logprob := (E erp).logpdf
                (if condTruthy cv then condGet cv
                 else (E erp).sample params (drawNext ds).1) params,
              active := true, conditioned := cv.isSome, structural := st },
            ?_, rfl, ?_⟩
    · rw [freshLookup_vars]
      exact getVar_setVar_self _ name _
    · exact freshLookup_newlogprob E t name erp params st cv ds
  · intro hcond
    have hmc : mustCreate (getVar t.vars name) erp st cv = false := by
      cases hb : mustCreate (getVar t.vars name) erp st cv with
      | true => exact absurd ((mustCreate_iff _ erp st cv).mp hb) hcond
      | false => rfl
    cases hg : getVar t.vars name with
    | none => rw [hg] at hmc; simp [mustCreate] at hmc
    | some r0 =>
      rw [hg] at hmc
      rw [lookup_eq_reuse E t name erp params st cv ds r0 hg hmc]
      refine ⟨r0, rfl, rfl, rfl, ?_⟩
      cases hp : r0.params != params with
      | true =>
        have hne : ¬ r0.params = params := by simpa using hp
        simp only [hp, if_true, hne, if_false]
        exact getVar_setVar_self _ name _
      | false =>
        have heq : r0.params = params := by simpa using hp
        simp only [hp, Bool.false_eq_true, if_false, heq, if_true]
        rw [show ({ r0 with params := params, logprob := r0.logprob, active := true }
              : RandomVariableRecord)
            = { r0 with params := params, active := true } from rfl]
        rw [← heq]
        have : ({ r0 with params := r0.params, active := true } : RandomVariableRecord)
            = { r0 with active := true } := rfl
        rw [this]
        exact getVar_setVar_self _ name _
  · obtain ⟨rec, ds', nlp, heq, hact⟩ := lookup_shape E t name erp params st cv ds
    refine ⟨rec, ?_, hact, ?_, ?_⟩
    · rw [heq]
      exact getVar_setVar_self _ name _
    · rw [heq]
    · rw [heq]

/-- C2 witness: concrete fresh creation forced by a truthy differing
conditionedValue at address 0 of `traceA`. -/
theorem C2_lookup_rule_witness :
    ∃ rec, getVar (lookup Etest traceA 0 0 7 false (some 9) [4]).1.vars 0 = some rec ∧
      (lookup Etest traceA 0 0 7 false (some 9) [4]).1.newlogprob
        = traceA.newlogprob + rec.logprob := by
  obtain ⟨rec, hg, _, hnl⟩ := (C2_lookup_rule Etest traceA 0 0 7 false (some 9) [4]).1
    (Or.inr ⟨{ erp := 0, params := 7, val := 5, logprob := 3, active := true,
               conditioned := false, structural := false }, by decide,
             Or.inr (Or.inr ⟨9, rfl, by decide, by decide⟩)⟩)
  exact ⟨rec, hg, hnl⟩

/-- C3: for every address bound to a record, proposeChange deep-copies the
trace, draws the proposed value from the record's ERP proposal kernel, sets the
record's value to it and recomputes its logDensity under the prior density
before re-executing; it returns the re-executed trace together with
forwardLogProb = proposal log-density (old → proposed) + newTrace.newLogProb
and reverseLogProb = proposal log-density (proposed → old) + newTrace.oldLogProb,
both under the record's params. -/
theorem C3_proposeChange (E : Env) (t : RandomExecutionTrace) (varname : Addr)
    (prog : Prog) (ds : List Value) (var : RandomVariableRecord)
    (hg : getVar t.vars varname = some var) :
    let propval := (E var.erp).propSample var.val var.params (drawNext ds).1
    let var' : RandomVariableRecord :=
      { var with val := propval, logprob := (E var.erp).logpdf propval var.params }
    let mutated : RandomExecutionTrace := { t with vars := setVar t.vars varname var' }
    let nt := traceUpdate E mutated prog (drawNext ds).2
    proposeChange E t varname prog ds =
      some (nt,
        (E var.erp).propLogpdf var.val propval var.params + nt.newlogprob,
        (E var.erp).propLogpdf propval var.val var.params + nt.oldlogprob) ∧
    getVar mutated.vars varname = some var' := by
  refine ⟨?_, getVar_setVar_self _ varname _⟩
  simp [proposeChange, hg]

/-- C3 witness: proposeChange succeeds at a bound address of `traceA`. -/
theorem C3_proposeChange_witness :
    (proposeChange Etest traceA 0 progLF [2, 3]).isSome = true := by
  obtain ⟨h1, _⟩ := C3_proposeChange Etest traceA 0 progLF [2, 3]
    { erp := 0, params := 7, val := 5, logprob := 3, active := true,
      conditioned := false, structural := false } (by decide)
  rw [h1]
  rfl

/-- C4: after update(), every record at an address not looked up during the run
is gone from the map, every looked-up address still holds a record, and
oldLogProb is exactly the sum of logDensity over the pre-call records at
addresses that were not looked up. -/
theorem C4_reclamation (E : Env) (t : RandomExecutionTrace) (prog : Prog) (ds : List Value)
    (hnd : (keys t.vars).Nodup) :
    (∀ a r0, getVar t.vars a = some r0 → a ∉ lookAddrs prog.ops →
        getVar (traceUpdate E t prog ds).vars a = none) ∧
    (∀ a ∈ lookAddrs prog.ops, ∃ r, getVar (traceUpdate E t prog ds).vars a = some r) ∧
    (traceUpdate E t prog ds).oldlogprob
      = ((t.vars.filter fun e => decide (e.1 ∉ lookAddrs prog.ops)).map
          fun e => e.2.logprob).sum := by
  obtain ⟨⟨hget, m1, fr, hm, hf2, hfr⟩, hk⟩ := traceUpdate_char E t prog ds hnd
  refine ⟨?_, ?_, ?_⟩
  · intro a r0 hg ha
    have h1 : getVar m1 a = some (deactivate r0) := by
      rw [forall2_runRel_getVar_not_looked _ _ _ hf2 a ha, hg]
      rfl
    have h2 : getVar (runResult E t prog ds).1.vars a = some (deactivate r0) := by
      rw [hm]
      exact getVar_append_left m1 fr a _ h1
    rw [traceUpdate_vars]
    exact getVar_filter_of_inactive _ a (deactivate r0) hk h2 rfl
  · intro a ha
    obtain ⟨r, hg, hact⟩ := hget a ha
    rw [traceUpdate_vars]
    exact ⟨r, getVar_filter_of_active _ a r hg hact⟩
  · rw [traceUpdate_oldlogprob, hm, inactiveSum_append,
      inactiveSum_of_all_active fr (fun e he => (hfr e he).1),
      inactiveSum_forall2 _ _ _ hf2]
    ring

/-- C4 witness: with two stored records and a computation looking up only
address 1, the record at address 0 is reclaimed and its logDensity (3) is
oldLogProb. -/
theorem C4_reclamation_witness :
    getVar (traceUpdate Etest traceC progOne []).vars 0 = none ∧
    (∃ r, getVar (traceUpdate Etest traceC progOne []).vars 1 = some r) ∧
    (traceUpdate Etest traceC progOne []).oldlogprob = 3 := by
  have h := C4_reclamation Etest traceC progOne [] (by decide)
  refine ⟨?_, h.2.1 1 (by decide), h.2.2.trans (by decide)⟩
  exact h.1 0 { erp := 0, params := 7, val := 5, logprob := 3, active := true,
                conditioned := false, structural := false } (by decide) (by decide)

/-- C5 counterexample: a supplied falsy conditionedValue (0) differing from the
stored value (6) does not create a fresh record at all: the stored record is
reused, its value stays 6 and it stays unconditioned, contradicting the claim
as stated for every supplied conditionedValue. -/
theorem C5_counterexample :
    (some (0 : Value)) ≠ none ∧ (0 : Value) ≠ 6 ∧
    (lookup Etest traceB 0 0 2 false (some 0) [8]).2.1 = 6 ∧
    (getVar (lookup Etest traceB 0 0 2 false (some 0) [8]).1.vars 0).map
        (fun r => (r.val, r.conditioned)) = some (6, false) := by
  decide

/-- C5 (amended): supplying a TRUTHY conditionedValue at an address whose
stored value differs forces a fresh record whose value is exactly the supplied
conditionedValue, marked conditioned; no sample is drawn (the oracle stream is
returned untouched). -/
theorem C5_conditioning_override (E : Env) (t : RandomExecutionTrace) (name : Addr)
    (erp : Nat) (params : Params) (st : Bool) (ds : List Value) (c : Value)
    (r0 : RandomVariableRecord) (hg : getVar t.vars name = some r0)
    (hc : c ≠ 0) (hne : c ≠ r0.val) :
    lookup E t name erp params st (some c) ds =
      ({ t with newlogprob := t.newlogprob + (E erp).logpdf c params,
                vars := setVar t.vars name
                  { erp := erp, params := params, val := c,
                    logprob := (E erp).logpdf c params, active := true,
                    conditioned := true, structural := st },
                logprob := t.logprob + (E erp).logpdf c params }, c, ds) := by
  have hmc : mustCreate (some r0) erp st (some c) = true := by
    simp only [mustCreate, Bool.or_eq_true, Bool.and_eq_true, bne_iff_ne]
    right
    exact ⟨by simpa [condTruthy] using hc, by simpa [condGet] using hne⟩
  rw [lookup_eq_fresh E t name erp params st (some c) ds (by rw [hg]; exact hmc)]
  have hct : condTruthy (some c) = true := by simpa [condTruthy] using hc
  simp [freshLookup, hct, condGet]

/-- C5 witness: a truthy conditionedValue 9 overriding stored value 6. -/
theorem C5_conditioning_override_witness :
    lookup Etest traceB 0 0 2 false (some 9) [8] =
      ({ traceB with newlogprob := traceB.newlogprob + (Etest 0).logpdf 9 2,
                     vars := setVar traceB.vars 0
                       { erp := 0, params := 2, val := 9,
                         logprob := (Etest 0).logpdf 9 2, active := true,
                         conditioned := true, structural := false },
                     logprob := traceB.logprob + (Etest 0).logpdf 9 2 }, 9, [8]) :=
  C5_conditioning_override Etest traceB 0 0 2 false [8] 9
    { erp := 0, params := 2, val := 6, logprob := 1, active := true,
      conditioned := false, structural := false } (by decide) (by decide) (by decide)

/-- C6 counterexample: with no active trace and a truthy conditionedValue (9),
the entry point returns 9, not the direct draw (7): conditioning is NOT
ignored, contradicting the claim. -/
theorem C6_counterexample :
    (lookupVariableValue Etest none 0 5 false 0 (some 9) [7]).1 = 9 ∧
    (Etest 0).sample 5 (drawNext [7]).1 = 7 ∧ (9 : Value) ≠ 7 := by
  decide

/-- C6 (amended): with no active trace, the entry point returns the supplied
conditionedValue when it is truthy and otherwise a direct draw from the erp's
sample operation given params; with an active trace it delegates to that
trace's lookup at the computed address. -/
theorem C6_resolveChoice (E : Env) (slot : Option RandomExecutionTrace) (erp : Nat)
    (params : Params) (st : Bool) (name : Addr) (cv : Option Value) (ds : List Value) :
    (slot = none → condTruthy cv = true →
      lookupVariableValue E slot erp params st name cv ds = (condGet cv, ds, none)) ∧
    (slot = none → condTruthy cv = false →
      lookupVariableValue E slot erp params st name cv ds
        = ((E erp).sample params (drawNext ds).1, (drawNext ds).2, none)) ∧
    (∀ t, slot = some t →
      lookupVariableValue E slot erp params st name cv ds
        = ((lookup E t name erp params st cv ds).2.1,
           (lookup E t name erp params st cv ds).2.2,
           some (lookup E t name erp params st cv ds).1)) := by
  refine ⟨?_, ?_, ?_⟩
  · rintro rfl hct
    simp [lookupVariableValue, hct]
  · rintro rfl hct
    simp [lookupVariableValue, hct]
  · rintro t rfl
    simp [lookupVariableValue]

/-- C6 witness: delegation to the active trace's lookup at the computed
address. -/
theorem C6_resolveChoice_witness :
    lookupVariableValue Etest (some traceA) 0 7 false 0 none [2]
      = ((lookup Etest traceA 0 0 7 false none [2]).2.1,
         (lookup Etest traceA 0 0 7 false none [2]).2.2,
         some (lookup Etest traceA 0 0 7 false none [2]).1) :=
  (C6_resolveChoice Etest (some traceA) 0 7 false 0 none [2]).2.2 traceA rfl

/-- C8 counterexample: a computation whose addresses, ERP identities,
structural flags and parameters are identical in both calls (it is the same op
list both times) but which looks up address 0 with two different ERP
identities: on the second update() newLogProb is 10, not 0. -/
theorem C8_counterexample :
    (traceUpdate Etest (traceUpdate Etest trace0 progDup2 [1, 2])
        progDup2 [0, 0]).newlogprob ≠ 0 := by
  decide

/-- C8 (amended): if the computation's looked-up addresses are pairwise
distinct within a call and its addresses, ERP identities, structural flags and
parameters are unchanged between two consecutive update() calls, then the
second call leaves the record map (hence every record's value) unchanged and
has newLogProb = oldLogProb = 0. -/
theorem C8_reuse_idempotence (E : Env) (t : RandomExecutionTrace) (prog : Prog)
    (ds1 ds2 : List Value) (hknd : (keys t.vars).Nodup)
    (hnd : (lookAddrs prog.ops).Nodup) :
    (traceUpdate E (traceUpdate E t prog ds1) prog ds2).vars
        = (traceUpdate E t prog ds1).vars ∧
    (traceUpdate E (traceUpdate E t prog ds1) prog ds2).newlogprob = 0 ∧
    (traceUpdate E (traceUpdate E t prog ds1) prog ds2).oldlogprob = 0 := by
  set t1 := traceUpdate E t prog ds1 with ht1
  have hact1 : ∀ e ∈ t1.vars, e.2.active = true := traceUpdate_all_active E t prog ds1
  have hk1 : (keys t1.vars).Nodup := traceUpdate_keys_nodup E t prog ds1 hknd
  have hmem1 : ∀ e ∈ t1.vars, e.1 ∈ lookAddrs prog.ops :=
    traceUpdate_mem_look E t prog ds1 hknd
  have htm : ∀ o ∈ prog.ops, MatchesOp t1.vars o := traceUpdate_matches E t prog ds1 hnd
  have hinit : List.Forall₂ ReRel (preRun t1, ds2).1.vars t1.vars :=
    forall2_reRel_init t1.vars
  obtain ⟨hf2, hnl, _⟩ := runOps_second E prog.ops t1.vars htm (preRun t1, ds2) hinit
  have hgetEnd : ∀ e ∈ t1.vars,
      getVar (runOps E (preRun t1, ds2) prog.ops).1.vars e.1 = some e.2 := by
    intro e he
    obtain ⟨erp2, p2, s2, c2, hop⟩ := mem_lookAddrs_exists prog.ops e.1 (hmem1 e he)
    obtain ⟨r', hr', _, _, _, hact', _⟩ :=
      runOps_look_char E prog.ops (preRun t1, ds2) hnd _ hop
    have hsome : getVar t1.vars e.1 = some e.2 := getVar_of_mem_nodup t1.vars e hk1 he
    rcases forall2_reRel_getVar _ _ hf2 e.1 with ⟨hn, _⟩ | ⟨r1, hg1, hror⟩
    · rw [hn] at hr'
      exact absurd hr' (by simp)
    · have hr1e : r1 = e.2 := by
        rw [hsome] at hg1
        exact (Option.some.inj hg1).symm
      rcases hror with hc | hc
      · rw [hc, hr1e]
      · rw [hc] at hr'
        have hde : r' = deactivate r1 := (Option.some.inj hr').symm
        rw [hde] at hact'
        exact absurd hact' (by simp [deactivate])
  have hEnd : (runOps E (preRun t1, ds2) prog.ops).1.vars = t1.vars :=
    forall2_reRel_eq _ _ hf2 hk1 hgetEnd
  refine ⟨?_, ?_, ?_⟩
  · rw [traceUpdate_vars,
      show runResult E t1 prog ds2 = runOps E (preRun t1, ds2) prog.ops from rfl, hEnd]
    exact filter_active_of_all_active t1.vars hact1
  · rw [traceUpdate_newlogprob,
      show runResult E t1 prog ds2 = runOps E (preRun t1, ds2) prog.ops from rfl, hnl]
    rfl
  · rw [traceUpdate_oldlogprob,
      show runResult E t1 prog ds2 = runOps E (preRun t1, ds2) prog.ops from rfl, hEnd]
    exact inactiveSum_of_all_active t1.vars hact1

/-- C8 witness: two identical runs of a two-address computation with different
oracle streams. -/
theorem C8_reuse_idempotence_witness :
    (traceUpdate Etest (traceUpdate Etest trace0 progTwo [4, 5]) progTwo [6, 7]).vars
        = (traceUpdate Etest trace0 progTwo [4, 5]).vars ∧
    (traceUpdate Etest (traceUpdate Etest trace0 progTwo [4, 5]) progTwo [6, 7]).newlogprob
        = 0 ∧
    (traceUpdate Etest (traceUpdate Etest trace0 progTwo [4, 5]) progTwo [6, 7]).oldlogprob
        = 0 :=
  C8_reuse_idempotence Etest trace0 progTwo [4, 5] [6, 7] (by decide) (by decide)

/-- C9: the code does NOT restore the previously active execution context when
the computation raises.  Evaluated at the failing input (prior slot empty,
computation raising immediately): after the error propagates, the slot still
holds the updating trace's identity (some 1) instead of the saved prior value
(none); trace.py lines 70-106 have no try/finally, the restore at line 106 is
skipped on the error path. -/
theorem C9_slot_not_restored :
    (traceUpdateE Etest none 1 trace0 { ops := [OpE.raiseErr], ret := 0 } []).1 = some 1 ∧
    (traceUpdateE Etest none 1 trace0 { ops := [OpE.raiseErr], ret := 0 } []).2 = none ∧
    some 1 ≠ (none : Option Nat) := by
  decide

/-- C10: a falsy non-None conditionedValue (0) at an address with no record
creates a record whose value is a fresh draw from the erp (the oracle stream is
consumed; the 0 is not stored), yet marked conditioned = true, and the address
is excluded from freeVarNames for every flag combination. -/
theorem C10_falsy_conditioned (E : Env) (t : RandomExecutionTrace) (name : Addr)
    (erp : Nat) (params : Params) (st : Bool) (ds : List Value)
    (hg : getVar t.vars name = none) :
    lookup E t name erp params st (some 0) ds =
      ({ t with newlogprob := t.newlogprob
                  + (E erp).logpdf ((E erp).sample params (drawNext ds).1) params,
                vars := setVar t.vars name
                  ({ erp := erp, params := params,
                     val := (E erp).sample params (drawNext ds).1,
                     logprob := (E erp).logpdf ((E erp).sample params (drawNext ds).1)
                       params,
                     active := true, conditioned := true, structural := st }),
                logprob := t.logprob
                  + (E erp).logpdf ((E erp).sample params (drawNext ds).1) params },
       (E erp).sample params (drawNext ds).1, (drawNext ds).2) ∧
    ∀ bs bn : Bool, name ∉ freeVarNames (lookup E t name erp params st (some 0) ds).1 bs bn := by
  have hct : condTruthy (some (0 : Value)) = false := by simp [condTruthy]
  have heq : lookup E t name erp params st (some 0) ds =
      ({ t with newlogprob := t.newlogprob
                  + (E erp).logpdf ((E erp).sample params (drawNext ds).1) params,
                vars := setVar t.vars name
                  ({ erp := erp, params := params,
                     val := (E erp).sample params (drawNext ds).1,
                     logprob := (E erp).logpdf ((E erp).sample params (drawNext ds).1)
                       params,
                     active := true, conditioned := true, structural := st }),
                logprob := t.logprob
                  + (E erp).logpdf ((E erp).sample params (drawNext ds).1) params },
       (E erp).sample params (drawNext ds).1, (drawNext ds).2) := by
    rw [lookup_eq_fresh E t name erp params st (some 0) ds (by rw [hg]; rfl)]
    simp [freshLookup, hct]
  refine ⟨heq, ?_⟩
  intro bs bn hmem
  rw [heq] at hmem
  simp only [freeVarNames, List.mem_map, List.mem_filter] at hmem
  obtain ⟨e, ⟨hein, hprop⟩, hename⟩ := hmem
  rcases mem_setVar t.vars name _ e hein with h | h
  · rw [getVar_eq_none_iff] at hg
    exact hg (hename ▸ List.mem_map_of_mem Prod.fst h)
  · rw [h] at hprop
    simp at hprop

/-- C10 witness: at an empty trace, conditionedValue 0 yields the sampled value
4, a conditioned record, and exclusion from freeVarNames. -/
theorem C10_falsy_conditioned_witness :
    (getVar (lookup Etest trace0 0 0 5 false (some 0) [4]).1.vars 0).map
        (fun r => (r.val, r.conditioned)) = some (4, true) ∧
    0 ∉ freeVarNames (lookup Etest trace0 0 0 5 false (some 0) [4]).1 true true := by
  have h := C10_falsy_conditioned Etest trace0 0 0 5 false [4] rfl
  constructor
  · rw [h.1]
    rfl
  · exact h.2 true true

/-!
Heap-model frame lemmas: `proposeChange` mutates only cells allocated at or
after the deep copy, never the cells referenced by the original trace.
-/

theorem hset_length (h : Heap) (r : Nat) (v : RandomVariableRecord) :
    (hset h r v).length = h.length :=
  List.length_set h r v

theorem hget_hset_ne : ∀ (h : Heap) (r j : Nat), r ≠ j → ∀ v,
    hget (hset h r v) j = hget h j := by
  intro h
  induction h with
  | nil => intro r j _ v; rfl
  | cons x rest ih =>
    intro r j hne v
    cases r with
    | zero =>
      cases j with
      | zero => exact absurd rfl hne
      | succ j' => rfl
    | succ r' =>
      cases j with
      | zero => rfl
      | succ j' =>
        show hget (hset rest r' v) j' = hget rest j'
        exact ih r' j' (fun hh => hne (by rw [hh])) v

theorem hget_append_lt : ∀ (h l : Heap) (j : Nat), j < h.length →
    hget (h ++ l) j = hget h j := by
  intro h
  induction h with
  | nil => intro l j hj; simp at hj
  | cons x rest ih =>
    intro l j hj
    cases j with
    | zero => rfl
    | succ j' => exact ih l j' (by simpa using hj)

theorem getVar_mem {α : Type} : ∀ (m : List (Addr × α)) (a : Addr) (v : α),
    getVar m a = some v → (a, v) ∈ m := by
  intro m
  induction m with
  | nil => intro a v h; simp [getVar] at h
  | cons e rest ih =>
    intro a v h
    by_cases he : e.1 = a
    · have hev : e.2 = v := by simpa [getVar, he] using h
      exact List.mem_cons.mpr (Or.inl (Prod.ext_iff.mpr ⟨he.symm, hev.symm⟩))
    · exact List.mem_cons.mpr (Or.inr (ih a v (by simpa [getVar, he] using h)))

theorem freshRefs_ge : ∀ (l : List (Addr × Nat)) (n : Nat), ∀ p ∈ freshRefs n l, n ≤ p.2 := by
  intro l
  induction l with
  | nil => intro n p hp; simp [freshRefs] at hp
  | cons e rest ih =>
    intro n p hp
    rcases List.mem_cons.mp (by simpa [freshRefs] using hp) with rfl | hp'
    · simp
    · have := ih (n + 1) p hp'
      omega

theorem hFreshLookup_frame (E : Env) (h : Heap) (t : HTrace) (name : Addr) (erp : Nat)
    (params : Params) (st : Bool) (cv : Option Value) (ds : List Value) (N : Nat)
    (hNh : N ≤ h.length) (hNt : ∀ p ∈ t.vars, N ≤ p.2) :
    (∀ j, j < N → hget (hFreshLookup E h t name erp params st cv ds).1 j = hget h j) ∧
    N ≤ (hFreshLookup E h t name erp params st cv ds).1.length ∧
    (∀ p ∈ (hFreshLookup E h t name erp params st cv ds).2.1.vars, N ≤ p.2) := by
  cases hc : condTruthy cv with
  | true =>
    simp only [hFreshLookup, hc, if_true]
    refine ⟨?_, ?_, ?_⟩
    · intro j hj
      rw [hget_hset_ne _ h.length j (by omega) _, hget_append_lt h _ j (by omega)]
    · rw [hset_length]
      simp only [List.length_append]
      omega
    · intro p hp
      rcases mem_setVar t.vars name h.length p hp with h' | h'
      · exact hNt p h'
      · rw [h']
        exact hNh
  | false =>
    simp only [hFreshLookup, hc, Bool.false_eq_true, if_false]
    refine ⟨?_, ?_, ?_⟩
    · intro j hj
      rw [hget_hset_ne _ h.length j (by omega) _, hget_append_lt h _ j (by omega)]
    · rw [hset_length]
      simp only [List.length_append]
      omega
    · intro p hp
      rcases mem_setVar t.vars name h.length p hp with h' | h'
      · exact hNt p h'
      · rw [h']
        exact hNh

theorem hLookup_frame (E : Env) (h : Heap) (t : HTrace) (name : Addr) (erp : Nat)
    (params : Params) (st : Bool) (cv : Option Value) (ds : List Value) (N : Nat)
    (hNh : N ≤ h.length) (hNt : ∀ p ∈ t.vars, N ≤ p.2) :
    (∀ j, j < N → hget (hLookup E h t name erp params st cv ds).1 j = hget h j) ∧
    N ≤ (hLookup E h t name erp params st cv ds).1.length ∧
    (∀ p ∈ (hLookup E h t name erp params st cv ds).2.1.vars, N ≤ p.2) := by
  cases hgv : getVar t.vars name with
  | none =>
    simp only [hLookup, hgv]
    exact hFreshLookup_frame E h t name erp params st cv ds N hNh hNt
  | some ref =>
    have href : N ≤ ref := hNt (name, ref) (getVar_mem t.vars name ref hgv)
    cases hb : ((hget h ref).erp != erp) || (st != (hget h ref).structural) ||
        (condTruthy cv && (condGet cv != (hget h ref).val)) with
    | true =>
      simp only [hLookup, hgv, hb, if_true]
      exact hFreshLookup_frame E h t name erp params st cv ds N hNh hNt
    | false =>
      simp only [hLookup, hgv, hb, Bool.false_eq_true, if_false]
      refine ⟨?_, ?_, ?_⟩
      · intro j hj
        exact hget_hset_ne h ref j (by omega) _
      · rw [hset_length]
        exact hNh
      · exact hNt

theorem hRunOps_frame (E : Env) (N : Nat) (ops : List Op) :
    ∀ s : Heap × HTrace × List Value, N ≤ s.1.length → (∀ p ∈ s.2.1.vars, N ≤ p.2) →
      (∀ j, j < N → hget (hRunOps E s ops).1 j = hget s.1 j) ∧
      N ≤ (hRunOps E s ops).1.length ∧
      (∀ p ∈ (hRunOps E s ops).2.1.vars, N ≤ p.2) := by
  induction ops with
  | nil => intro s h1 h2; exact ⟨fun j _ => rfl, h1, h2⟩
  | cons o rest ih =>
    intro s h1 h2
    cases o with
    | look name erp params st cv =>
      obtain ⟨f1, f2, f3⟩ := hLookup_frame E s.1 s.2.1 name erp params st cv s.2.2 N h1 h2
      have hstep : hRunOp E s (Op.look name erp params st cv)
          = ((hLookup E s.1 s.2.1 name erp params st cv s.2.2).1,
             (hLookup E s.1 s.2.1 name erp params st cv s.2.2).2.1,
             (hLookup E s.1 s.2.1 name erp params st cv s.2.2).2.2.2) := rfl
      obtain ⟨g1, g2, g3⟩ := ih (hRunOp E s (Op.look name erp params st cv))
        (by rw [hstep]; exact f2) (by rw [hstep]; exact f3)
      refine ⟨?_, g2, g3⟩
      intro j hj
      rw [show hRunOps E s (Op.look name erp params st cv :: rest)
            = hRunOps E (hRunOp E s (Op.look name erp params st cv)) rest from rfl]
      rw [g1 j hj, hstep]
      exact f1 j hj
    | factor x => exact ih (hRunOp E s (Op.factor x)) h1 h2
    | condition b => exact ih (hRunOp E s (Op.condition b)) h1 h2

theorem markInactiveRefs_frame (N : Nat) :
    ∀ (refs : List Nat) (h : Heap), (∀ r ∈ refs, N ≤ r) →
      (∀ j, j < N → hget (markInactiveRefs h refs) j = hget h j) ∧
      (markInactiveRefs h refs).length = h.length := by
  intro refs
  induction refs with
  | nil => intro h _; exact ⟨fun j _ => rfl, rfl⟩
  | cons r rest ih =>
    intro h hr
    obtain ⟨g1, g2⟩ := ih (hset h r (deactivate (hget h r)))
      (fun x hx => hr x (by simp [hx]))
    constructor
    · intro j hj
      rw [show markInactiveRefs h (r :: rest)
            = markInactiveRefs (hset h r (deactivate (hget h r))) rest from rfl]
      rw [g1 j hj]
      exact hget_hset_ne h r j (by have := hr r (by simp); omega) _
    · rw [show markInactiveRefs h (r :: rest)
            = markInactiveRefs (hset h r (deactivate (hget h r))) rest from rfl]
      rw [g2, hset_length]

theorem hTraceUpdate_frame (E : Env) (h : Heap) (t : HTrace) (prog : Prog)
    (ds : List Value) (N : Nat) (hNh : N ≤ h.length) (hNt : ∀ p ∈ t.vars, N ≤ p.2) :
    ∀ j, j < N → hget (hTraceUpdate E h t prog ds).1 j = hget h j := by
  have hrefs : ∀ r ∈ t.vars.map Prod.snd, N ≤ r := by
    intro r hr
    rcases List.mem_map.mp hr with ⟨p, hp, rfl⟩
    exact hNt p hp
  obtain ⟨m1, m2⟩ := markInactiveRefs_frame N (t.vars.map Prod.snd) h hrefs
  have hrun := hRunOps_frame E N prog.ops
    (markInactiveRefs h (t.vars.map Prod.snd),
     { t with logprob := 0, newlogprob := 0, conditionsSatisfied := true }, ds)
    (by rw [m2]; exact hNh) hNt
  intro j hj
  rw [show (hTraceUpdate E h t prog ds).1
        = (hRunOps E (markInactiveRefs h (t.vars.map Prod.snd),
            { t with logprob := 0, newlogprob := 0, conditionsSatisfied := true }, ds)
            prog.ops).1 from rfl]
  rw [hrun.1 j hj]
  exact m1 j hj

theorem hProposeChange_shape (E : Env) (h : Heap) (t : HTrace) (varname : Addr)
    (prog : Prog) (ds : List Value) (ref : Nat)
    (hgv : getVar (freshRefs h.length t.vars) varname = some ref) :
    ∃ v2 : RandomVariableRecord, ∃ res2 : Heap × HTrace × LP × LP,
      hProposeChange E h t varname prog ds = some res2 ∧
      res2.1 = (hTraceUpdate E
          (hset (h ++ t.vars.map fun e => hget h e.2) ref v2)
          { t with vars := freshRefs h.length t.vars } prog (drawNext ds).2).1 := by
  simp only [hProposeChange, hDeepcopy, hgv]
  exact ⟨_, _, rfl, rfl⟩

/-- C7: proposeChange operates on a deep copy that shares no mutable record
state with the original: writing to the copy's cells (the value mutation of
the proposed record and everything traceUpdate does during re-execution)
leaves every heap cell referenced by the original trace's record map
unchanged — hence every original record's value, params and logDensity are
unchanged after proposeChange returns.  The original trace value itself (its
record map and its logProb, newLogProb, oldLogProb, conditionsSatisfied and
returnValue fields) is never written: the operation only builds and returns a
new trace, which the embedding makes structural. -/
theorem C7_proposeChange_frame (E : Env) (h : Heap) (t : HTrace) (varname : Addr)
    (prog : Prog) (ds : List Value)
    (hvalid : ∀ p ∈ t.vars, p.2 < h.length) :
    ∀ res, hProposeChange E h t varname prog ds = some res →
      ∀ p ∈ t.vars, hget res.1 p.2 = hget h p.2 := by
  intro res hres p hp
  cases hgv : getVar (freshRefs h.length t.vars) varname with
  | none =>
    rw [show hProposeChange E h t varname prog ds = none by
      simp [hProposeChange, hDeepcopy, hgv]] at hres
    exact absurd hres (by simp)
  | some ref =>
    obtain ⟨v2, res2, heq, hres1⟩ := hProposeChange_shape E h t varname prog ds ref hgv
    rw [heq] at hres
    have hrr : res2 = res := Option.some.inj hres
    subst hrr
    rw [hres1]
    have href : h.length ≤ ref :=
      freshRefs_ge t.vars h.length (varname, ref) (getVar_mem _ varname ref hgv)
    have hp2 : p.2 < h.length := hvalid p hp
    have hlen2 : h.length ≤ (hset (h ++ t.vars.map fun e => hget h e.2) ref v2).length := by
      rw [hset_length]
      simp [List.length_append]
    have hvars2 : ∀ q ∈ ({ t with vars := freshRefs h.length t.vars } : HTrace).vars,
        h.length ≤ q.2 := fun q hq => freshRefs_ge t.vars h.length q hq
    have hframe := hTraceUpdate_frame E
      (hset (h ++ t.vars.map fun e => hget h e.2) ref v2)
      { t with vars := freshRefs h.length t.vars } prog (drawNext ds).2
      h.length hlen2 hvars2
    rw [hframe p.2 hp2]
    rw [hget_hset_ne _ ref p.2 (by omega) v2]
    exact hget_append_lt h _ p.2 hp2

/-- C7 witness: a one-record trace; after proposeChange at its address, the
original record's heap cell is unchanged. -/
theorem C7_proposeChange_frame_witness :
    hProposeChange Etest heap7 htrace7 5 prog7 [1, 2]
      = some ((hProposeChange Etest heap7 htrace7 5 prog7 [1, 2]).getD default) ∧
    hget ((hProposeChange Etest heap7 htrace7 5 prog7 [1, 2]).getD default).1 0
      = hget heap7 0 := by
  refine ⟨by decide, ?_⟩
  exact C7_proposeChange_frame Etest heap7 htrace7 5 prog7 [1, 2] (by decide)
    ((hProposeChange Etest heap7 htrace7 5 prog7 [1, 2]).getD default)
    (by decide) (5, 0) (by decide)

end ProbTrace
